import Mathlib

/-!
Verification model of the Patient persona-chatbot repository.

This file gives a shallow embedding of the parts of the code base that the
verified properties concern:

* `src/agents/refiner.py` — `StyleRefiner._enforce_style_rules`, the
  deterministic style-enforcement pass (modelled on `List Char`);
* `src/retriever/index.py` — the score-fusion part of
  `HybridRetriever.search`;
* `src/agents/judge.py` — the accept/reject reconciliation in `Judge.judge`;
* `src/agents/orchestrator.py` — the bounded revision loop of
  `Orchestrator.process_turn` and the memory-update step `_update_memory`;
* `src/memory/episodic.py` — `EpisodicMemory.append_turn` and the other
  durable-store operations, modelled as pure state transformers.

Python strings are modelled as `List Char`.  `str.lower`, the `\s`, `[A-Z]`,
`[a-z]`, `\d` regex classes and `str.split()` are modelled at the ASCII level
(the behaviours exercised by the program: citation tokens, placeholders and
punctuation are all ASCII).  Floating-point scores are modelled as rationals;
the only float→int step, `int(user_word_count * 1.2)`, agrees with rational
`(uw * 6) / 5` (floor) for every `uw` at which the surrounding
`max(6, min(35, ·+4))` is not saturated, because the IEEE-754 product
`uw * 1.2` rounds to the exact rational value or stays within `0.2` of it
there; hence the word budget is modelled with exact Nat arithmetic.
-/

/-! ### Character classes (ASCII model of the Python regex classes) -/

/-- Model of the regex class `\s` (ASCII part): space, tab, LF, VT, FF, CR. -/
def pyIsSpace (c : Char) : Bool :=
  c.toNat == 32 || c.toNat == 9 || c.toNat == 10 || c.toNat == 11 ||
  c.toNat == 12 || c.toNat == 13

/-- Model of the regex class `[A-Z]`. -/
def isUpperA (c : Char) : Bool := 65 ≤ c.toNat && c.toNat ≤ 90

/-- Model of the regex class `[a-z]`. -/
def isLowerA (c : Char) : Bool := 97 ≤ c.toNat && c.toNat ≤ 122

/-- Model of the regex class `\d` (ASCII part). -/
def isDigitA (c : Char) : Bool := 48 ≤ c.toNat && c.toNat ≤ 57

/-- Character class of the word-counting regex `[a-z']` in
`_enforce_style_rules` (39 is the apostrophe). -/
def isRunChar (c : Char) : Bool := isLowerA c || c.toNat == 39

/-- ASCII model of `str.lower` on a single character. -/
def pyToLower (c : Char) : Char :=
  if isUpperA c then Char.ofNat (c.toNat + 32) else c

/-- Code points of the "loud punctuation" class removed by
`re.sub(r'[!;:"“”’`~_^|\\/@#*$%+=<>\{\}]', '', temp)` in
`_enforce_style_rules` (in the order they appear in the pattern). -/
def stripSetN : List Nat :=
  [33, 59, 58, 34, 8220, 8221, 8217, 96, 126, 95, 94, 124, 92, 47, 64, 35,
   42, 36, 37, 43, 61, 60, 62, 123, 125]

/-- Membership in the loud-punctuation class. -/
def isStripChar (c : Char) : Bool := stripSetN.contains c.toNat

/-- Characters stripped by the final cleanup `re.sub(r'[,:;]+$', '', temp)`. -/
def isTrailPunct (c : Char) : Bool := c == ',' || c == ':' || c == ';'

/-! ### Small string utilities (models of Python primitives) -/

/-- Decimal digit character for `n < 10`. -/
def digitChar (n : Nat) : Char := Char.ofNat (48 + n)

/-- Fuelled decimal printer (fuel `n + 1` always suffices). -/
def natCharsGo : Nat → Nat → List Char
  | 0, _ => []
  | f + 1, n => if n < 10 then [digitChar n]
                else natCharsGo f (n / 10) ++ [digitChar (n % 10)]

/-- Model of Python `str(n)` for a natural number. -/
def natChars (n : Nat) : List Char := natCharsGo (n + 1) n

/-- Drop a trailing run of characters satisfying `p`. -/
def dropTrailing (p : Char → Bool) (l : List Char) : List Char :=
  (l.reverse.dropWhile p).reverse

/-- Model of Python `str.strip()`. -/
def pyStrip (l : List Char) : List Char :=
  dropTrailing pyIsSpace (l.dropWhile pyIsSpace)

/-- Accumulator loop of `splitWs`; `acc` holds the current word reversed. -/
def splitWsGo : List Char → List Char → List (List Char)
  | acc, [] => if acc.isEmpty then [] else [acc.reverse]
  | acc, c :: rest =>
    if pyIsSpace c then
      if acc.isEmpty then splitWsGo [] rest else acc.reverse :: splitWsGo [] rest
    else splitWsGo (c :: acc) rest

/-- Model of Python `str.split()` (split on whitespace runs, no empties). -/
def splitWs (l : List Char) : List (List Char) := splitWsGo [] l

/-- Boolean model of the Python `in` operator on strings (contiguous
substring test). -/
def isInfixB (needle : List Char) : List Char → Bool
  | [] => needle.isEmpty
  | c :: rest => needle.isPrefixOf (c :: rest) || isInfixB needle rest

/-! ### The deterministic enforcement pass (`StyleRefiner._enforce_style_rules`) -/

/-- The placeholder `__CIT_{k}__` that `citation_replacer` substitutes for the
`k`-th citation match. -/
def citPlaceholder (k : Nat) : List Char :=
  '_' :: '_' :: 'C' :: 'I' :: 'T' :: '_' :: (natChars k ++ ['_', '_'])

/-- Fuelled scan modelling `re.sub(r'\[[A-Z]+\d+\]', citation_replacer, text)`:
leftmost non-overlapping matches of `[` `[A-Z]+` `\d+` `]` are replaced by
numbered placeholders.  Fuel `l.length` always suffices (each step consumes at
least one character). -/
def maskGo : Nat → Nat → List Char → List Char
  | 0, _, l => l
  | _ + 1, _, [] => []
  | f + 1, k, c :: rest =>
    if c == '[' then
      let us := rest.takeWhile isUpperA
      let r1 := rest.dropWhile isUpperA
      let ds := r1.takeWhile isDigitA
      let r2 := r1.dropWhile isDigitA
      match us, ds, r2 with
      | _ :: _, _ :: _, c2 :: r3 =>
        if c2 == ']' then citPlaceholder k ++ maskGo f (k + 1) r3
        else c :: maskGo f k rest
      | _, _, _ => c :: maskGo f k rest
    else c :: maskGo f k rest

/-- Citation masking pass of `_enforce_style_rules`. -/
def maskCits (l : List Char) : List Char := maskGo l.length 0 l

/-- Run-collapsing state machine: collapse maximal runs of the character `t`
to a single `t`.  Models `re.sub(r'\.{2,}', '.', ·)` and
`re.sub(r'\?{2,}', '?', ·)` (a run of length one is returned unchanged, so
collapsing every run to one character is the same function). -/
def runGo (t : Char) : Bool → List Char → List Char
  | _, [] => []
  | inR, c :: rest =>
    if c == t then
      if inR then runGo t true rest else c :: runGo t true rest
    else c :: runGo t false rest

/-- Whitespace-collapsing state machine: model of `re.sub(r'\s+', ' ', ·)`. -/
def wsGo : Bool → List Char → List Char
  | _, [] => []
  | inW, c :: rest =>
    if pyIsSpace c then
      if inW then wsGo true rest else ' ' :: wsGo true rest
    else c :: wsGo false rest

/-- Fuelled scan modelling `re.sub(r',\s*,+', ', ', temp)` with Python's
left-to-right non-rescanning semantics: at a `,`, if a (possibly empty)
whitespace run is followed by at least one more comma, the whole
`, ws* ,+` region is replaced by `", "` and scanning resumes after it.
Fuel `l.length` suffices (each step consumes at least one character). -/
def commaGo : Nat → List Char → List Char
  | 0, l => l
  | _ + 1, [] => []
  | f + 1, c :: rest =>
    if c == ',' then
      match rest.dropWhile pyIsSpace with
      | c2 :: r2 =>
        if c2 == ',' then
          ',' :: ' ' :: commaGo f ((c2 :: r2).dropWhile (fun d => d == ','))
        else c :: commaGo f rest
      | [] => c :: commaGo f rest
    else c :: commaGo f rest

/-- Number of maximal `[a-z']+` runs, with state flag; models
`len(re.findall(r"[a-z']+", tok))`. -/
def runCntGo : Bool → List Char → Nat
  | _, [] => 0
  | inR, c :: rest =>
    if isRunChar c then
      if inR then runCntGo true rest else 1 + runCntGo true rest
    else runCntGo false rest

/-- Word count of a token: `len(re.findall(r"[a-z']+", tok))`. -/
def runCount (l : List Char) : Nat := runCntGo false l

/-- Model of `re.fullmatch(r'\[[A-Z]+\d+\]', tok)`: the token is `[`, then a
non-empty run of `[A-Z]`, then a non-empty run of `\d`, then `]`, and
nothing else. -/
def isCitTok : List Char → Bool
  | '[' :: rest =>
    let us := rest.takeWhile isUpperA
    let r1 := rest.dropWhile isUpperA
    let ds := r1.takeWhile isDigitA
    let r2 := r1.dropWhile isDigitA
    !us.isEmpty && !ds.isEmpty && r2 == [']']
  | _ => false

/-- Inner loop run on a length-budget break: every remaining token that
matches the citation pattern and is not already among the kept tokens is
appended (`for remaining in tokens[idx+1:] ...`). -/
def appendCits (kept rem : List (List Char)) : List (List Char) :=
  rem.foldl (fun acc r => if isCitTok r && !(acc.contains r) then acc ++ [r] else acc) kept

/-- The truncation loop of `_enforce_style_rules`: tokens are kept in order,
non-citation tokens add their `[a-z']+` run count to the running word count,
and on reaching the budget the loop breaks after re-appending the remaining
citation tokens. -/
def truncGo (maxW : Nat) : List (List Char) → Nat → List (List Char) → List (List Char)
  | [], _, kept => kept
  | t :: rest, cnt, kept =>
    let kept2 := kept ++ [t]
    let cnt2 := if isCitTok t then cnt else cnt + runCount t
    if maxW ≤ cnt2 then appendCits kept2 rest
    else truncGo maxW rest cnt2 kept2

/-- Everything `_enforce_style_rules` does before the truncation loop:
citation masking, lowercasing (which also lowercases the placeholders, so the
subsequent `str.replace(placeholder, citation)` calls find no occurrence and
are the identity — see `citPlaceholder_not_infix_of_lower`), loud-punctuation
removal, `.`/`?`/`,` run collapsing, and whitespace normalisation. -/
def normalizeText (text : List Char) : List Char :=
  let s1 := (maskCits text).map pyToLower
  let s2 := s1.filter (fun c => !(isStripChar c))
  let s3a := runGo '.' false s2
  let s3b := runGo '?' false s3a
  let s3 := commaGo s3b.length s3b
  pyStrip (wsGo false s3)

/-- The word budget `max(6, min(35, int(user_word_count * 1.2) + 4))` with
`user_word_count = max(1, len(user_message.split()))`; see the header note on
the float model. -/
def maxWordsFor (userMessage : List Char) : Nat :=
  let uw := max 1 (splitWs userMessage).length
  max 6 (min 35 (uw * 6 / 5 + 4))

/-- Model of `StyleRefiner._enforce_style_rules(text, user_message)`. -/
def enforceStyleRules (userMessage text : List Char) : List Char :=
  if text.isEmpty then text
  else
    let toks := splitWs (normalizeText text)
    let kept := truncGo (maxWordsFor userMessage) toks 0 []
    let joined := pyStrip (List.intercalate [' '] kept)
    pyStrip (dropTrailing isTrailPunct joined)

/-- Word count of a string excluding citation tokens, as in the spec's
length property: tokens matching the citation pattern count zero, every other
token contributes its number of `[a-z']+` runs. -/
def wordCountExCit (l : List Char) : Nat :=
  ((splitWs l).map (fun t => if isCitTok t then 0 else runCount t)).sum

/-! ### Score fusion (`HybridRetriever.search`, src/retriever/index.py) -/

/-- A loaded canonical fact (the fields the fusion logic touches). -/
structure CFact where
  id : String
  confidence : ℚ
deriving DecidableEq

/-- Python `max` over a non-empty score list (first element seeds the fold). -/
def listMax : List ℚ → ℚ
  | [] => 0
  | x :: xs => xs.foldl max x

/-- Python `min` over a non-empty score list. -/
def listMin : List ℚ → ℚ
  | [] => 0
  | x :: xs => xs.foldl min x

/-- The dictionary update `combined_scores[idx] = combined_scores.get(idx, 0) + v`
on an insertion-ordered association list (Python dict semantics: an existing
key keeps its position, a new key is appended). -/
def addScore (d : List (Nat × ℚ)) (i : Nat) (v : ℚ) : List (Nat × ℚ) :=
  if d.any (fun p => p.1 == i) then
    d.map (fun p => if p.1 == i then (p.1, p.2 + v) else p)
  else d ++ [(i, v)]

/-- Value stored for key `i` (0 when absent); on key-unique lists this is the
dictionary lookup with default 0. -/
def lookup0 (d : List (Nat × ℚ)) (i : Nat) : ℚ :=
  ((d.filter (fun p => p.1 == i)).map (fun p => p.2)).sum

/-- The min-max normalisation applied to a BM25 score
(`(score - min_bm25) / bm25_range if bm25_range > 0 else 0.5`). -/
def normLex (mn rng s : ℚ) : ℚ := if 0 < rng then (s - mn) / rng else 1 / 2

/-- The `bm25_range` computed by the code:
`max_bm25 - min_bm25 if max_bm25 > min_bm25 else 1.0`. -/
def bm25Range (scores : List ℚ) : ℚ :=
  if listMin scores < listMax scores then listMax scores - listMin scores else 1

/-- The `combined_scores` dictionary built by `HybridRetriever.search` from
the BM25 result list and the dense result list (each a list of
(fact-index, score) pairs). -/
def fuseScores (bm25 dense : List (Nat × ℚ)) : List (Nat × ℚ) :=
  let d1 :=
    if bm25.isEmpty then []
    else
      let scores := bm25.map (fun p => p.2)
      let mn := listMin scores
      let rng := bm25Range scores
      bm25.foldl (fun d p => addScore d p.1 ((1 / 2) * normLex mn rng p.2)) []
  dense.foldl (fun d p => addScore d p.1 ((1 / 2) * p.2)) d1

/-- Stable descending insertion by fused score (`x` goes before the first
element whose score is ≤ its own, so earlier elements precede later equals —
the order `sorted(..., key=lambda x: x[1], reverse=True)` produces). -/
def insertDesc (x : Nat × ℚ) : List (Nat × ℚ) → List (Nat × ℚ)
  | [] => [x]
  | y :: ys => if y.2 ≤ x.2 then x :: y :: ys else y :: insertDesc x ys

/-- Stable descending sort by fused score. -/
def sortDesc : List (Nat × ℚ) → List (Nat × ℚ)
  | [] => []
  | x :: xs => insertDesc x (sortDesc xs)

/-- The fusion part of `HybridRetriever.search`: build `combined_scores`,
sort descending by score, take `k`, and read each result's fact id off the
corpus.  Returns (fact id, fused score) pairs. -/
def hybridSearch (facts : List CFact) (bm25 dense : List (Nat × ℚ)) (k : Nat) :
    List (String × ℚ) :=
  if facts.isEmpty then []
  else ((sortDesc (fuseScores bm25 dense)).take k).map
    (fun p => ((facts.getD p.1 ⟨"", 0⟩).id, p.2))

/-- Spec predicate for the claimed tie-breaking rule: whenever two adjacent
results carry the same fused score, their fact ids are in ascending order. -/
def tiesAscendB : List (String × ℚ) → Bool
  | a :: b :: rest =>
    (a.2 != b.2 || decide (a.1 < b.1)) && tiesAscendB (b :: rest)
  | _ => true

/-! ### Judge reconciliation (`Judge.judge`, src/agents/judge.py) -/

/-- The four axis scores plus overall, as parsed from the judging oracle. -/
structure MJudgeScores where
  factuality : ℚ
  persona : ℚ
  helpfulness : ℚ
  safety : ℚ
  overall : ℚ
deriving DecidableEq

/-- A judge decision as returned by `Judge.judge`. -/
structure MJudgeDecision where
  accept : Bool
  scores : MJudgeScores
  targetedEdits : List String
deriving DecidableEq

/-- The fixed acceptance threshold `self.threshold = 4.0`. -/
def judgeThreshold : ℚ := 4

/-- The accept/score reconciliation of `Judge.judge` (lines 110–119): when the
oracle's accept flag is true it is kept; when it is false it is overridden to
true exactly when all four scores reach the threshold. -/
def reconcileAccept (oracleAccept : Bool) (s : MJudgeScores) : Bool :=
  if oracleAccept then true
  else
    if s.factuality < judgeThreshold || s.persona < judgeThreshold ||
       s.helpfulness < judgeThreshold || s.safety < judgeThreshold then false
    else true

/-- The decision built by `Judge.judge` on a successful parse. -/
def judgeDecisionOfParsed (oracleAccept : Bool) (s : MJudgeScores)
    (edits : List String) : MJudgeDecision :=
  { accept := reconcileAccept oracleAccept s, scores := s, targetedEdits := edits }

/-- The conservative fallback decision returned on a parse failure. -/
def fallbackDecision : MJudgeDecision :=
  { accept := false
    scores := { factuality := 3, persona := 3, helpfulness := 3, safety := 5, overall := 7 / 2 }
    targetedEdits := ["Unable to parse judge response. Please review manually."] }

/-! ### The revision loop (`Orchestrator.process_turn`, lines 146–222) -/

/-- `MAX_REVISE_LOOPS` from src/config.py (default 2). -/
def MAX_REVISE_LOOPS : Nat := 2

/-- Result of the revision loop: the final response, the iteration counter,
and the number of judge invocations performed. -/
structure LoopResult where
  finalResponse : List Char
  iterations : Nat
  judgeCalls : Nat
deriving DecidableEq

/-- The `while iterations < MAX_REVISE_LOOPS` loop of `process_turn`, with the
judging oracle abstracted as the sequence `jO` of decisions returned by
successive judge calls and the edit-applying oracle abstracted as the sequence
`eO` of `apply_edits` outputs (indexed by the editing-transition number).
`fuel = MAX_REVISE_LOOPS - iterations` is the number of loop entries left.
The loop judges the current response; on accept, or on a rejection with no
targeted edits, it exits with the current response; otherwise it replaces the
response by the raw `apply_edits` output and increments the counter. -/
def reviseGo (jO : Nat → MJudgeDecision) (eO : Nat → List Char) :
    Nat → Nat → Nat → List Char → LoopResult
  | 0, iters, calls, cur => ⟨cur, iters, calls⟩
  | f + 1, iters, calls, cur =>
    let d := jO calls
    if d.accept then ⟨cur, iters, calls + 1⟩
    else if d.targetedEdits.isEmpty then ⟨cur, iters, calls + 1⟩
    else reviseGo jO eO f (iters + 1) (calls + 1) (eO iters)

/-- The revision loop of `process_turn`, started on the styled response with
`iterations = 0`.  `process_turn` then returns `finalResponse` as the turn's
response and `revised := iterations > 0`. -/
def processTurnLoop (maxLoops : Nat) (jO : Nat → MJudgeDecision)
    (eO : Nat → List Char) (styled : List Char) : LoopResult :=
  reviseGo jO eO maxLoops 0 0 styled

/-! ### Memory (`EpisodicMemory`, src/memory/episodic.py, and
`Orchestrator._update_memory`, src/agents/orchestrator.py lines 241–269) -/

/-- A row of the `conversation_turns` table. -/
structure TurnRec where
  session : String
  userId : String
  turnIndex : Nat
  userMessage : String
  assistantResponse : String
deriving DecidableEq

/-- A row of the `conversation_summaries` table (primary key `session`). -/
structure SummaryRec where
  session : String
  userId : String
  rollingSummary : String
  turnCount : Nat
deriving DecidableEq

/-- A row of the `episodic_notes` table (metadata holds the truncated
assistant response that `_update_memory` stores with the note). -/
structure NoteRec where
  userId : String
  bullet : String
  metaResponse : String
deriving DecidableEq

/-- The durable store: the three tables of `EpisodicMemory`. -/
structure MemState where
  turns : List TurnRec
  summaries : List SummaryRec
  notes : List NoteRec
deriving DecidableEq

/-- The `SELECT COALESCE(MAX(turn_index), -1) + 1` computation of
`append_turn`: 0 for a fresh session, one more than the maximum stored index
otherwise. -/
def nextTurnIndex (st : MemState) (session : String) : Nat :=
  ((st.turns.filter (fun t => t.session == session)).map
    (fun t => t.turnIndex)).foldl (fun a b => max a (b + 1)) 0

/-- `EpisodicMemory.append_turn`: insert the exchange with the next turn
index for the session. -/
def appendTurn (st : MemState) (session userId m a : String) : MemState :=
  { st with turns := st.turns ++ [⟨session, userId, nextTurnIndex st session, m, a⟩] }

/-- `EpisodicMemory.update_summary` (`INSERT OR REPLACE` keyed by session). -/
def updateSummary (st : MemState) (session userId summary : String)
    (turnCount : Nat) : MemState :=
  { st with summaries :=
      (st.summaries.filter (fun s => !(s.session == session))) ++
      [⟨session, userId, summary, turnCount⟩] }

/-- `EpisodicMemory.add_note`: append an episodic note for the user. -/
def addNote (st : MemState) (userId bullet metaResponse : String) : MemState :=
  { st with notes := st.notes ++ [⟨userId, bullet, metaResponse⟩] }

/-- The preference keywords checked by `_update_memory`. -/
def prefKeywords : List (List Char) :=
  ["prefer".data, "like".data, "dislike".data, "always".data, "never".data]

/-- The heuristic `any(word in user_message.lower() for word in [...])`. -/
def hasPrefKeyword (userMessage : List Char) : Bool :=
  prefKeywords.any (fun k => isInfixB k (userMessage.map pyToLower))

/-- `Orchestrator._update_memory`: refresh the rolling summary every fifth
turn (by the in-memory history length) and add an episodic note when the user
message contains a preference keyword.  The summariser's text output is
abstracted as `summaryOracle`.  Note that no operation on the
`conversation_turns` table appears: the method never calls `append_turn`. -/
def updateMemory (st : MemState) (userId session userMessage assistantResponse : String)
    (history : List (String × String)) (summaryOracle : String) : MemState :=
  let fullLen := history.length + 1
  let st1 :=
    if fullLen % 5 == 0 then updateSummary st session userId summaryOracle fullLen
    else st
  if hasPrefKeyword userMessage.data then
    addNote st1 userId (String.mk ("User mentioned: ".data ++ userMessage.data.take 100))
      (String.mk (assistantResponse.data.take 100))
  else st1

/-! ### Auxiliary forms used in the analysis of the enforcement pass -/

/-- The truncation loop specialised to token lists without citation-shaped
tokens (the only shape that ever reaches it, since the text is entirely
lowercase by then): keep tokens until the running `[a-z']+` run count reaches
the budget.  `truncGo_eq_simpleTrunc` relates it to `truncGo`. -/
def simpleTrunc (maxW : Nat) : Nat → List (List Char) → List (List Char)
  | _, [] => []
  | cnt, t :: rest =>
    if maxW ≤ cnt + runCount t then [t]
    else t :: simpleTrunc maxW (cnt + runCount t) rest

/-- No two adjacent characters of the list satisfy the pair predicate `p`. -/
def noAdjBy (p : Char → Char → Bool) : List Char → Bool
  | a :: b :: rest => !(p a b) && noAdjBy p (b :: rest)
  | _ => true

/-! ### Lemmas about the revision loop -/

/-- The iteration counter never decreases below its starting value. -/
theorem reviseGo_iterations_ge (jO : Nat → MJudgeDecision) (eO : Nat → List Char) :
    ∀ f iters calls cur, iters ≤ (reviseGo jO eO f iters calls cur).iterations := by
  intro f
  induction f with
  | zero => intro iters calls cur; simp [reviseGo]
  | succ f ih =>
    intro iters calls cur
    simp only [reviseGo]
    split
    · simp
    · split
      · simp
      · exact Nat.le_trans (Nat.le_succ iters) (ih (iters + 1) (calls + 1) (eO iters))

/-- The iteration counter grows by at most the remaining fuel. -/
theorem reviseGo_iterations_le (jO : Nat → MJudgeDecision) (eO : Nat → List Char) :
    ∀ f iters calls cur, (reviseGo jO eO f iters calls cur).iterations ≤ iters + f := by
  intro f
  induction f with
  | zero => intro iters calls cur; simp [reviseGo]
  | succ f ih =>
    intro iters calls cur
    simp only [reviseGo]
    split
    · simp
    · split
      · simp
      · have h := ih (iters + 1) (calls + 1) (eO iters)
        omega

/-- The number of judge invocations grows by at most `fuel + 1`. -/
theorem reviseGo_judgeCalls_le (jO : Nat → MJudgeDecision) (eO : Nat → List Char) :
    ∀ f iters calls cur, (reviseGo jO eO f iters calls cur).judgeCalls ≤ calls + f + 1 := by
  intro f
  induction f with
  | zero => intro iters calls cur; simp [reviseGo]
  | succ f ih =>
    intro iters calls cur
    simp only [reviseGo]
    split
    · simp
    · split
      · simp
      · have h := ih (iters + 1) (calls + 1) (eO iters)
        omega

/-- Shape of the loop's final response: the starting text if no editing
transition happened, otherwise the raw output of the last `apply_edits`
call. -/
theorem reviseGo_final_shape (jO : Nat → MJudgeDecision) (eO : Nat → List Char) :
    ∀ f iters calls cur,
      (reviseGo jO eO f iters calls cur).finalResponse =
        if (reviseGo jO eO f iters calls cur).iterations = iters then cur
        else eO ((reviseGo jO eO f iters calls cur).iterations - 1) := by
  intro f
  induction f with
  | zero => intro iters calls cur; simp [reviseGo]
  | succ f ih =>
    intro iters calls cur
    simp only [reviseGo]
    split
    · simp
    · split
      · simp
      · have hge := reviseGo_iterations_ge jO eO f (iters + 1) (calls + 1) (eO iters)
        have hne : ¬ (reviseGo jO eO f (iters + 1) (calls + 1) (eO iters)).iterations = iters := by
          omega
        rw [if_neg hne]
        have h := ih (iters + 1) (calls + 1) (eO iters)
        by_cases hcase :
            (reviseGo jO eO f (iters + 1) (calls + 1) (eO iters)).iterations = iters + 1
        · rw [h, if_pos hcase, hcase]
          simp
        · rw [h, if_neg hcase]

/-! ### Claim C3: the revision loop is bounded and terminates -/

/-- Claim C3 (confirmed).  For every sequence of judging-oracle outputs
(including the conservative fallback decision produced on every parse
failure) and every sequence of edit outputs, the revision loop — a total
function, hence terminating — performs at most `MAX_ITERATIONS + 1` judge
invocations and its final iteration count never exceeds the configured
maximum; `MAX_REVISE_LOOPS` defaults to 2. -/
theorem revision_loop_bounded (maxLoops : Nat) (jO : Nat → MJudgeDecision)
    (eO : Nat → List Char) (styled : List Char) :
    (processTurnLoop maxLoops jO eO styled).judgeCalls ≤ maxLoops + 1 ∧
    (processTurnLoop maxLoops jO eO styled).iterations ≤ maxLoops ∧
    MAX_REVISE_LOOPS = 2 := by
  refine ⟨?_, ?_, rfl⟩
  · have h := reviseGo_judgeCalls_le jO eO maxLoops 0 0 styled
    simpa [processTurnLoop] using h
  · have h := reviseGo_iterations_le jO eO maxLoops 0 0 styled
    simpa [processTurnLoop] using h

/-! ### Claim C2: edited responses are not re-enforced -/

/-- Claim C2 counterexample.  A run in which the judge rejects once with one
edit and then accepts: the `apply_edits` output `"HELLO"` is returned as the
final response verbatim, although the deterministic enforcement pass maps it
to `"hello"` — so the edited text was never re-passed through enforcement
before being judged and returned. -/
theorem edited_response_not_reenforced_counterexample :
    (processTurnLoop MAX_REVISE_LOOPS
        (fun n => ([⟨false, fallbackDecision.scores, ["shorten"]⟩,
                    ⟨true, fallbackDecision.scores, []⟩] :
            List MJudgeDecision).getD n ⟨true, fallbackDecision.scores, []⟩)
        (fun _ => "HELLO".data) "ok".data).finalResponse = "HELLO".data ∧
    enforceStyleRules "hi".data "HELLO".data = "hello".data ∧
    "HELLO".data ≠ "hello".data := by
  refine ⟨by decide, by decide, by decide⟩

/-- Claim C2 (amended).  Whenever the revision loop takes an EDITING
transition, the raw `apply_edits` output is judged as-is and, when the loop
then terminates, returned verbatim as the final response: no deterministic
enforcement pass is re-applied inside the loop.  Formally the final response
is the starting styled text when no editing happened and the raw output of
the last `apply_edits` call otherwise. -/
theorem edited_response_returned_verbatim (maxLoops : Nat)
    (jO : Nat → MJudgeDecision) (eO : Nat → List Char) (styled : List Char) :
    (processTurnLoop maxLoops jO eO styled).finalResponse =
      if (processTurnLoop maxLoops jO eO styled).iterations = 0 then styled
      else eO ((processTurnLoop maxLoops jO eO styled).iterations - 1) := by
  simpa [processTurnLoop] using reviseGo_final_shape jO eO maxLoops 0 0 styled

/-! ### Claim C4: the two-rejections-then-accept scenario -/

/-- Claim C4 counterexample.  With `MAX_ITERATIONS = 2` and a judge that
rejects with two targeted edits on the first two passes and would accept on
the third, the loop exits when the counter reaches 2 and performs only two
judging passes — the third, accepting pass never happens. -/
theorem third_judging_pass_never_happens :
    (processTurnLoop MAX_REVISE_LOOPS
        (fun n => ([⟨false, fallbackDecision.scores, ["edit one", "edit two"]⟩,
                    ⟨false, fallbackDecision.scores, ["edit one", "edit two"]⟩,
                    ⟨true, fallbackDecision.scores, []⟩] :
            List MJudgeDecision).getD n ⟨true, fallbackDecision.scores, []⟩)
        (fun _ => "revised".data) "styled".data).judgeCalls = 2 ∧
    ¬ (processTurnLoop MAX_REVISE_LOOPS
        (fun n => ([⟨false, fallbackDecision.scores, ["edit one", "edit two"]⟩,
                    ⟨false, fallbackDecision.scores, ["edit one", "edit two"]⟩,
                    ⟨true, fallbackDecision.scores, []⟩] :
            List MJudgeDecision).getD n ⟨true, fallbackDecision.scores, []⟩)
        (fun _ => "revised".data) "styled".data).judgeCalls = 3 := by
  refine ⟨by decide, by decide⟩

/-- Claim C4 (amended).  In that scenario the loop terminates with
`iterationCount = 2` and `revised = true` as claimed, but after only two
judging passes: the `accept = true` verdict is never requested. -/
theorem two_rejection_scenario_result :
    (processTurnLoop MAX_REVISE_LOOPS
        (fun n => ([⟨false, fallbackDecision.scores, ["edit one", "edit two"]⟩,
                    ⟨false, fallbackDecision.scores, ["edit one", "edit two"]⟩,
                    ⟨true, fallbackDecision.scores, []⟩] :
            List MJudgeDecision).getD n ⟨true, fallbackDecision.scores, []⟩)
        (fun _ => "revised".data) "styled".data).iterations = 2 ∧
    0 < (processTurnLoop MAX_REVISE_LOOPS
        (fun n => ([⟨false, fallbackDecision.scores, ["edit one", "edit two"]⟩,
                    ⟨false, fallbackDecision.scores, ["edit one", "edit two"]⟩,
                    ⟨true, fallbackDecision.scores, []⟩] :
            List MJudgeDecision).getD n ⟨true, fallbackDecision.scores, []⟩)
        (fun _ => "revised".data) "styled".data).iterations ∧
    (processTurnLoop MAX_REVISE_LOOPS
        (fun n => ([⟨false, fallbackDecision.scores, ["edit one", "edit two"]⟩,
                    ⟨false, fallbackDecision.scores, ["edit one", "edit two"]⟩,
                    ⟨true, fallbackDecision.scores, []⟩] :
            List MJudgeDecision).getD n ⟨true, fallbackDecision.scores, []⟩)
        (fun _ => "revised".data) "styled".data).judgeCalls = 2 := by
  refine ⟨by decide, by decide, by decide⟩

/-! ### Claim C9: an oracle accept flag short-circuits the threshold check -/

/-- Claim C9 (confirmed).  When the judging oracle's output parses and its
accept flag is true, `Judge.judge` returns `accept = true` whatever the four
scores are; the ≥ 4.0 threshold reconciliation only runs when the flag is
false. -/
theorem oracle_accept_flag_short_circuits (s : MJudgeScores) (edits : List String) :
    (judgeDecisionOfParsed true s edits).accept = true := by
  simp [judgeDecisionOfParsed, reconcileAccept]

/-! ### Claim C8: the memory-update step never appends a conversation turn -/

/-- Claim C8 (code bug).  `Orchestrator._update_memory` refreshes the rolling
summary and may add an episodic note, but it performs no operation on the
durable `conversation_turns` table: `EpisodicMemory.append_turn` is never
called, so the (user, assistant) pair of the completed turn is not appended
to the per-session conversation-turn history. -/
theorem update_memory_never_appends_turn (st : MemState)
    (userId session userMessage assistantResponse : String)
    (history : List (String × String)) (summaryOracle : String) :
    (updateMemory st userId session userMessage assistantResponse history
        summaryOracle).turns = st.turns := by
  simp only [updateMemory]
  split <;> split <;> simp [addNote, updateSummary]

/-! ### Lemmas about the score-fusion dictionary and sort -/

/-- Membership after a stable descending insertion. -/
theorem mem_insertDesc {b x : Nat × ℚ} {l : List (Nat × ℚ)} :
    b ∈ insertDesc x l ↔ b = x ∨ b ∈ l := by
  induction l with
  | nil => simp [insertDesc]
  | cons y ys ih =>
    simp only [insertDesc]
    split
    · simp [or_comm, or_assoc, or_left_comm]
    · simp [ih]
      tauto

/-- Stable descending insertion preserves descending order. -/
theorem pairwise_insertDesc (x : Nat × ℚ) (l : List (Nat × ℚ))
    (h : l.Pairwise (fun a b => b.2 ≤ a.2)) :
    (insertDesc x l).Pairwise (fun a b => b.2 ≤ a.2) := by
  induction l with
  | nil => simp [insertDesc]
  | cons y ys ih =>
    rw [List.pairwise_cons] at h
    obtain ⟨hy, hys⟩ := h
    simp only [insertDesc]
    split
    · refine List.Pairwise.cons ?_ (List.Pairwise.cons hy hys)
      intro b hb
      rcases List.mem_cons.mp hb with hb | hb
      · subst hb; assumption
      · exact le_trans (hy b hb) (by assumption)
    · refine List.Pairwise.cons ?_ (ih hys)
      intro b hb
      rcases mem_insertDesc.mp hb with hb | hb
      · subst hb
        exact le_of_not_le (by assumption)
      · exact hy b hb

/-- The fused-score sort produces a list descending in the score
component. -/
theorem pairwise_sortDesc (l : List (Nat × ℚ)) :
    (sortDesc l).Pairwise (fun a b => b.2 ≤ a.2) := by
  induction l with
  | nil => simp [sortDesc]
  | cons x xs ih => exact pairwise_insertDesc x (sortDesc xs) ih

/-! ### Claim C6: result ordering of `HybridRetriever.search` -/

/-- Claim C6 counterexample.  Two facts that tie on fused score (a dense-only
candidate set scoring both at 0.5) come back in dictionary insertion order —
here `D2` before `D1` — not in ascending fact-id order as claimed. -/
theorem search_tie_not_ascending_counterexample :
    hybridSearch [⟨"D1", 9 / 10⟩, ⟨"D2", 9 / 10⟩] []
        [(1, 1 / 2), (0, 1 / 2)] 5 =
      [("D2", 1 / 4), ("D1", 1 / 4)] ∧
    tiesAscendB (hybridSearch [⟨"D1", 9 / 10⟩, ⟨"D2", 9 / 10⟩] []
        [(1, 1 / 2), (0, 1 / 2)] 5) = false := by
  constructor
  · norm_num [hybridSearch, fuseScores, addScore, sortDesc, insertDesc]
  · norm_num [hybridSearch, fuseScores, addScore, sortDesc, insertDesc, tiesAscendB]
    decide

/-- Claim C6 (amended).  `HybridRetriever.search` orders its result
descending by fused score, deterministically (it is a pure function of the
corpus and the two index score lists); score ties are broken by the insertion
order of the `combined_scores` dictionary — lexical candidates in BM25 rank
order first, then dense-only candidates in dense result order — not by fact
id. -/
theorem search_orders_descending (facts : List CFact)
    (bm25 dense : List (Nat × ℚ)) (k : Nat) :
    (hybridSearch facts bm25 dense k).Pairwise (fun a b => b.2 ≤ a.2) := by
  unfold hybridSearch
  split
  · simp
  · rw [List.pairwise_map]
    refine List.Pairwise.sublist (List.take_sublist k _) ?_
    exact pairwise_sortDesc (fuseScores bm25 dense)

/-! ### Lemmas about the combined-scores dictionary -/

/-- Lookup distributes over cons. -/
theorem lookup0_cons (q : Nat × ℚ) (d : List (Nat × ℚ)) (j : Nat) :
    lookup0 (q :: d) j = (if q.1 = j then q.2 else 0) + lookup0 d j := by
  simp only [lookup0, List.filter_cons]
  by_cases h : q.1 = j
  · simp [h]
  · simp [h]

/-- Key uniqueness is preserved by the dictionary update. -/
theorem nodup_keys_addScore {d : List (Nat × ℚ)} (i : Nat) (v : ℚ)
    (h : (d.map Prod.fst).Nodup) : ((addScore d i v).map Prod.fst).Nodup := by
  unfold addScore
  split
  · have hmap : (d.map (fun p => if p.1 == i then (p.1, p.2 + v) else p)).map Prod.fst
        = d.map Prod.fst := by
      rw [List.map_map]
      refine List.map_congr_left ?_
      intro p _
      by_cases hp : p.1 = i <;> simp [hp]
    rw [hmap]; exact h
  · rename_i hany
    rw [List.map_append, List.nodup_append]
    refine ⟨h, List.nodup_singleton _, ?_⟩
    intro a ha hb
    simp only [List.mem_map] at ha
    obtain ⟨p, hp, rfl⟩ := ha
    simp only [List.map_cons, List.map_nil, List.mem_singleton] at hb
    exact hany (List.any_eq_true.mpr ⟨p, hp, by simp [hb]⟩)

/-- The dictionary update at a key absent from the head passes over it. -/
theorem addScore_cons_ne (p : Nat × ℚ) (d' : List (Nat × ℚ)) (i : Nat) (v : ℚ)
    (hpi : ¬ p.1 = i) : addScore (p :: d') i v = p :: addScore d' i v := by
  by_cases hany' : (d'.any fun q => q.1 == i) = true
  · have hany : ((p :: d').any fun q => q.1 == i) = true := by
      simp [List.any_cons, hany']
    simp only [addScore, hany, hany', if_true, List.map_cons]
    rw [if_neg (by simp [hpi])]
  · have hany : ((p :: d').any fun q => q.1 == i) = false := by
      simp only [List.any_cons, Bool.or_eq_false_iff]
      exact ⟨by simp [hpi], Bool.eq_false_iff.mpr (fun hcon => hany' hcon)⟩
    have h1 : addScore (p :: d') i v = (p :: d') ++ [(i, v)] := by
      unfold addScore
      rw [if_neg (by rw [hany]; simp)]
    have h2 : addScore d' i v = d' ++ [(i, v)] := by
      unfold addScore
      rw [if_neg hany']
    rw [h1, h2]
    simp

/-- Effect of the dictionary update on lookups, given unique keys. -/
theorem lookup0_addScore (i : Nat) (v : ℚ) (j : Nat) :
    ∀ d : List (Nat × ℚ), (d.map Prod.fst).Nodup →
      lookup0 (addScore d i v) j = lookup0 d j + if j = i then v else 0 := by
  intro d
  induction d with
  | nil =>
    intro _
    have hform : addScore [] i v = [(i, v)] := by simp [addScore]
    rw [hform]
    by_cases h : j = i
    · subst h; simp [lookup0]
    · have hij : (i == j) = false := beq_eq_false_iff_ne.mpr (Ne.symm h)
      simp [lookup0, hij, h]
  | cons p d' ih =>
    intro hnodup
    have hnd' : (d'.map Prod.fst).Nodup := (List.nodup_cons.mp (by simpa using hnodup)).2
    have hpnotin : p.1 ∉ d'.map Prod.fst := (List.nodup_cons.mp (by simpa using hnodup)).1
    by_cases hpi : p.1 = i
    · have hany : ((p :: d').any fun q => q.1 == i) = true := by
        simp [List.any_cons, hpi]
      have hmap : d'.map (fun q => if q.1 == i then (q.1, q.2 + v) else q) = d' := by
        have hq : ∀ q ∈ d', (if q.1 == i then (q.1, q.2 + v) else q) = q := by
          intro q hq
          have hne : ¬ q.1 = i := by
            intro hcon
            exact hpnotin (by
              rw [hpi, ← hcon]
              exact List.mem_map_of_mem Prod.fst hq)
          simp [hne]
        calc d'.map (fun q => if q.1 == i then (q.1, q.2 + v) else q)
            = d'.map id := List.map_congr_left (by simpa using hq)
          _ = d' := List.map_id d'
      have hform : addScore (p :: d') i v = (p.1, p.2 + v) :: d' := by
        simp only [addScore, hany, if_true, List.map_cons]
        rw [if_pos (by simp [hpi]), hmap]
      rw [hform, lookup0_cons, lookup0_cons]
      by_cases hj : j = i
      · have hpj : p.1 = j := hpi.trans hj.symm
        rw [if_pos hpj, if_pos hpj, if_pos hj]
        ring
      · have hpj : ¬ p.1 = j := by
          rw [hpi]; exact fun hc => hj hc.symm
        rw [if_neg hpj, if_neg hpj, if_neg hj]
        ring
    · rw [addScore_cons_ne p d' i v hpi, lookup0_cons, lookup0_cons, ih hnd']
      ring

/-- Key uniqueness is preserved by folding dictionary updates. -/
theorem nodup_keys_foldl_addScore (g : Nat × ℚ → ℚ) :
    ∀ (L d : List (Nat × ℚ)), (d.map Prod.fst).Nodup →
      ((L.foldl (fun d p => addScore d p.1 (g p)) d).map Prod.fst).Nodup := by
  intro L
  induction L with
  | nil => intro d h; simpa using h
  | cons p L' ih =>
    intro d h
    exact ih (addScore d p.1 (g p)) (nodup_keys_addScore p.1 (g p) h)

/-- Folding dictionary updates adds, for each key, the sum of the
contributions of the entries carrying that key. -/
theorem lookup0_foldl_addScore (g : Nat × ℚ → ℚ) (j : Nat) :
    ∀ (L d : List (Nat × ℚ)), (d.map Prod.fst).Nodup →
      lookup0 (L.foldl (fun d p => addScore d p.1 (g p)) d) j =
        lookup0 d j + ((L.filter (fun p => p.1 == j)).map g).sum := by
  intro L
  induction L with
  | nil => intro d _; simp
  | cons p L' ih =>
    intro d h
    simp only [List.foldl_cons]
    rw [ih (addScore d p.1 (g p)) (nodup_keys_addScore p.1 (g p) h)]
    rw [lookup0_addScore p.1 (g p) j d h]
    simp only [List.filter_cons]
    by_cases hpj : p.1 = j
    · rw [if_pos (show j = p.1 from hpj.symm),
        if_pos (show (p.1 == j) = true by simp [hpj])]
      simp only [List.map_cons, List.sum_cons]
      ring
    · rw [if_neg (show ¬ j = p.1 from fun hcon => hpj hcon.symm),
        if_neg (show ¬ (p.1 == j) = true by simp [hpj])]
      ring

/-- All dictionary values stay zero when every contribution is zero. -/
theorem values_zero_foldl_addScore (g : Nat × ℚ → ℚ) :
    ∀ (L d : List (Nat × ℚ)), (∀ q ∈ d, q.2 = 0) → (∀ p ∈ L, g p = 0) →
      ∀ q ∈ L.foldl (fun d p => addScore d p.1 (g p)) d, q.2 = 0 := by
  intro L
  induction L with
  | nil => intro d hd _ q hq; exact hd q hq
  | cons p L' ih =>
    intro d hd hL q hq
    refine ih (addScore d p.1 (g p)) ?_ (fun r hr => hL r (List.mem_cons_of_mem p hr)) q hq
    intro r hr
    have hgp : g p = 0 := hL p (List.mem_cons_self p L')
    unfold addScore at hr
    split at hr
    · simp only [List.mem_map] at hr
      obtain ⟨s, hs, rfl⟩ := hr
      by_cases hsi : s.1 == p.1 <;> simp [hsi, hd s hs, hgp]
    · rcases List.mem_append.mp hr with hr | hr
      · exact hd r hr
      · simp only [List.mem_singleton] at hr
        subst hr
        exact hgp

/-- A lookup in an all-zero dictionary is zero. -/
theorem lookup0_eq_zero_of_values_zero {d : List (Nat × ℚ)}
    (h : ∀ q ∈ d, q.2 = 0) (j : Nat) : lookup0 d j = 0 := by
  unfold lookup0
  refine List.sum_eq_zero ?_
  intro x hx
  simp only [List.mem_map, List.mem_filter] at hx
  obtain ⟨q, ⟨hq, _⟩, rfl⟩ := hx
  exact h q hq

/-- Folding `max` over a constant list yields that constant. -/
theorem foldl_max_const (c : ℚ) :
    ∀ l : List ℚ, (∀ y ∈ l, y = c) → ∀ x, x = c → l.foldl max x = c := by
  intro l
  induction l with
  | nil => intro _ x hx; simpa using hx
  | cons y ys ih =>
    intro h x hx
    simp only [List.foldl_cons]
    refine ih (fun z hz => h z (List.mem_cons_of_mem y hz)) _ ?_
    rw [hx, h y (List.mem_cons_self y ys), max_self]

/-- Folding `min` over a constant list yields that constant. -/
theorem foldl_min_const (c : ℚ) :
    ∀ l : List ℚ, (∀ y ∈ l, y = c) → ∀ x, x = c → l.foldl min x = c := by
  intro l
  induction l with
  | nil => intro _ x hx; simpa using hx
  | cons y ys ih =>
    intro h x hx
    simp only [List.foldl_cons]
    refine ih (fun z hz => h z (List.mem_cons_of_mem y hz)) _ ?_
    rw [hx, h y (List.mem_cons_self y ys), min_self]

/-! ### Claim C7: normalisation of a single-valued lexical score set -/

/-- Claim C7 counterexample.  A lexical-only candidate set with the single
score 2.0: the code's `bm25_range` is 1.0, the normalised lexical score is 0,
and the fused score comes out 0 — not the claimed
`0.5 * 0.5 + 0.5 * 0 = 0.25`. -/
theorem single_score_not_half_counterexample :
    hybridSearch [⟨"D1", 9 / 10⟩] [(0, 2)] [] 5 = [("D1", 0)] ∧
    (0 : ℚ) ≠ (1 / 2) * (1 / 2) + (1 / 2) * 0 := by
  constructor
  · norm_num [hybridSearch, fuseScores, addScore, sortDesc, insertDesc,
      listMax, listMin, bm25Range, normLex]
  · norm_num

/-- Claim C7 (amended).  When the lexical index returns a non-empty candidate
set whose scores have a single distinct value, the code sets `bm25_range` to
1.0 (so the divide-by-zero guard `else 0.5` is unreachable) and the
normalised lexical score used for fusion is 0 for each such candidate; each
candidate's fused score is then `0.5 * 0 + 0.5 * denseSimilarity`, a missing
dense signal contributing 0. -/
theorem single_score_lexical_normalizes_to_zero (bm25 dense : List (Nat × ℚ))
    (c : ℚ) (h1 : bm25 ≠ []) (h2 : ∀ p ∈ bm25, p.2 = c) :
    bm25Range (bm25.map (fun p => p.2)) = 1 ∧
    (∀ p ∈ bm25,
      normLex (listMin (bm25.map (fun q => q.2)))
        (bm25Range (bm25.map (fun q => q.2))) p.2 = 0) ∧
    (∀ j, lookup0 (fuseScores bm25 dense) j =
      ((dense.filter (fun p => p.1 == j)).map (fun p => (1 / 2) * p.2)).sum) := by
  obtain ⟨p0, bm25', rfl⟩ : ∃ p0 bm25', bm25 = p0 :: bm25' := by
    cases bm25 with
    | nil => exact absurd rfl h1
    | cons p0 bm25' => exact ⟨p0, bm25', rfl⟩
  have hscores : ∀ y ∈ (p0 :: bm25').map (fun p => p.2), y = c := by
    intro y hy
    simp only [List.mem_map] at hy
    obtain ⟨p, hp, rfl⟩ := hy
    exact h2 p hp
  have hmin : listMin ((p0 :: bm25').map (fun p => p.2)) = c := by
    simp only [List.map_cons, listMin]
    exact foldl_min_const c _ (fun z hz => hscores z (by simp [hz]))
      p0.2 (h2 p0 (List.mem_cons_self p0 bm25'))
  have hmax : listMax ((p0 :: bm25').map (fun p => p.2)) = c := by
    simp only [List.map_cons, listMax]
    exact foldl_max_const c _ (fun z hz => hscores z (by simp [hz]))
      p0.2 (h2 p0 (List.mem_cons_self p0 bm25'))
  have hrange : bm25Range ((p0 :: bm25').map (fun p => p.2)) = 1 := by
    unfold bm25Range
    rw [hmin, hmax, if_neg (lt_irrefl c)]
  refine ⟨hrange, ?_, ?_⟩
  · intro p hp
    rw [hmin, hrange, h2 p hp]
    simp [normLex]
  · intro j
    unfold fuseScores
    simp only [List.isEmpty_cons, Bool.false_eq_true, if_false]
    have hzero : ∀ q ∈ ((p0 :: bm25').foldl
        (fun d p => addScore d p.1
          ((1 / 2) * normLex (listMin ((p0 :: bm25').map (fun p => p.2)))
            (bm25Range ((p0 :: bm25').map (fun p => p.2))) p.2)) []), q.2 = 0 := by
      refine values_zero_foldl_addScore _ _ [] (by simp) ?_
      intro p hp
      rw [hmin, hrange, h2 p hp]
      simp [normLex]
    rw [lookup0_foldl_addScore (fun p => (1 / 2) * p.2) j dense _
      (nodup_keys_foldl_addScore _ (p0 :: bm25') [] (by simp))]
    rw [lookup0_eq_zero_of_values_zero hzero j, zero_add]

/-- Witness for `single_score_lexical_normalizes_to_zero` at a concrete
two-candidate lexical set with the single score 2 and one dense hit. -/
theorem single_score_lexical_normalizes_to_zero_witness :
    bm25Range (([((0 : Nat), (2 : ℚ)), (1, 2)]).map (fun p => p.2)) = 1 ∧
    lookup0 (fuseScores [((0 : Nat), (2 : ℚ)), (1, 2)] [(1, 1 / 2)]) 1 =
      ((([((1 : Nat), (1 : ℚ) / 2)]).filter (fun p => p.1 == 1)).map
        (fun p => (1 / 2) * p.2)).sum := by
  have h := single_score_lexical_normalizes_to_zero
    [((0 : Nat), (2 : ℚ)), (1, 2)] [(1, 1 / 2)] 2 (by simp) (by simp)
  exact ⟨h.1, h.2.2 1⟩

/-! ### Lemmas and claims about the enforcement pass -/

/-- A substring of `l` only uses characters of `l`. -/
theorem isInfixB_mem {n : List Char} :
    ∀ {l : List Char}, isInfixB n l = true → ∀ c ∈ n, c ∈ l := by
  intro l
  induction l with
  | nil =>
    intro h c hc
    simp only [isInfixB, List.isEmpty_iff] at h
    subst h
    simp at hc
  | cons d rest ih =>
    intro h c hc
    simp only [isInfixB, Bool.or_eq_true] at h
    rcases h with h | h
    · exact (List.isPrefixOf_iff_prefix.mp h).subset hc
    · exact List.mem_cons_of_mem d (ih h c hc)

/-- Justification for dropping the (identity) restoration loop from the
model: every placeholder key `__CIT_k__` contains the uppercase letter `C`,
so it cannot occur in a string without uppercase characters — in particular
not in the lowercased `temp` that `str.replace(placeholder, citation)`
searches. -/
theorem citPlaceholder_not_infix_of_lower (k : Nat) (l : List Char)
    (h : ∀ c ∈ l, isUpperA c = false) : isInfixB (citPlaceholder k) l = false := by
  rw [Bool.eq_false_iff]
  intro hcon
  have hC : 'C' ∈ citPlaceholder k := by simp [citPlaceholder]
  have := h 'C' (isInfixB_mem hcon 'C' hC)
  simp [isUpperA] at this

/-- Claim C1 (code bug).  The enforcement pass destroys citation tokens
instead of preserving them: `temp.lower()` lowercases the placeholders to
`__cit_k__` before the `str.replace(placeholder, citation)` loop runs, so the
uppercase keys are never found, and the punctuation strip then removes the
underscores.  On the failing input the citation `[D3]` comes out as `cit0`
(the surrounding text is lowercased as specified). -/
theorem citation_not_preserved_by_enforcement :
    enforceStyleRules "hi".data "I like [D3] a lot".data = "i like cit0 a lot".data ∧
    isInfixB "[D3]".data (enforceStyleRules "hi".data "I like [D3] a lot".data) = false ∧
    isInfixB "[D3]".data "I like [D3] a lot".data = true := by
  refine ⟨by decide, by decide, by decide⟩

/-- Claim C5 counterexample.  For the one-word user message `"hi"` the
claimed bound is `min(35, round(1 * 1.2) + 4) = 5`, but the code's budget has
a floor of 6 (`max(6, ...)`), and on `"a b c d e f g"` the enforcement output
keeps 6 words — exceeding the claimed bound. -/
theorem word_budget_exceeds_claimed_bound :
    wordCountExCit (enforceStyleRules "hi".data "a b c d e f g".data) = 6 ∧
    min 35 (1 + 4) < wordCountExCit (enforceStyleRules "hi".data "a b c d e f g".data) := by
  refine ⟨by decide, by decide⟩

/-- Claim C10 counterexample.  The enforcement pass is not idempotent: on
`", , ,"` the first pass produces `","` (the truncated join ends in a comma
after one round of trailing-punctuation stripping), and a second pass strips
that comma away, producing the empty string. -/
theorem enforcement_not_idempotent :
    enforceStyleRules "hi".data (enforceStyleRules "hi".data ", , ,".data) ≠
      enforceStyleRules "hi".data ", , ,".data := by
  decide

/-! ### Character-level facts -/

/-- Valid code points round-trip through `Char.ofNat`. -/
theorem toNat_charOfNat {n : Nat} (h1 : 48 ≤ n) (h2 : n ≤ 122) :
    (Char.ofNat n).toNat = n := by
  unfold Char.ofNat
  rw [dif_pos (by constructor; omega)]
  rfl

/-- Lowercasing never produces an uppercase letter. -/
theorem isUpperA_pyToLower (c : Char) : isUpperA (pyToLower c) = false := by
  unfold pyToLower
  split
  · rename_i h
    simp only [isUpperA, Bool.and_eq_true, decide_eq_true_eq] at h
    have ht : (Char.ofNat (c.toNat + 32)).toNat = c.toNat + 32 :=
      toNat_charOfNat (by omega) (by omega)
    simp [isUpperA, ht]
    omega
  · rename_i h
    simpa [isUpperA] using h

/-- Lowercasing a character either fixes it or lands in the lowercase
range 97–122. -/
theorem pyToLower_cases (c : Char) :
    pyToLower c = c ∨ (97 ≤ (pyToLower c).toNat ∧ (pyToLower c).toNat ≤ 122) := by
  unfold pyToLower
  split
  · rename_i h
    simp only [isUpperA, Bool.and_eq_true, decide_eq_true_eq] at h
    have ht : (Char.ofNat (c.toNat + 32)).toNat = c.toNat + 32 :=
      toNat_charOfNat (by omega) (by omega)
    right
    rw [ht]
    omega
  · left; rfl

/-- A non-uppercase character is fixed by lowercasing. -/
theorem pyToLower_eq_self {c : Char} (h : isUpperA c = false) : pyToLower c = c := by
  unfold pyToLower
  rw [h]
  simp

/-! ### Character membership through each stage -/

/-- Characters of `runGo` output come from its input. -/
theorem mem_runGo (t : Char) : ∀ (b : Bool) (l : List Char), ∀ c ∈ runGo t b l, c ∈ l := by
  intro b l
  induction l generalizing b with
  | nil => intro c hc; simp [runGo] at hc
  | cons d rest ih =>
    intro c hc
    simp only [runGo] at hc
    split at hc
    · split at hc
      · exact List.mem_cons_of_mem d (ih true c hc)
      · rcases List.mem_cons.mp hc with rfl | hc
        · exact List.mem_cons_self c rest
        · exact List.mem_cons_of_mem d (ih true c hc)
    · rcases List.mem_cons.mp hc with rfl | hc
      · exact List.mem_cons_self c rest
      · exact List.mem_cons_of_mem d (ih false c hc)

/-- Characters of `wsGo` output come from its input or are the space
it inserts. -/
theorem mem_wsGo : ∀ (b : Bool) (l : List Char), ∀ c ∈ wsGo b l, c ∈ l ∨ c = ' ' := by
  intro b l
  induction l generalizing b with
  | nil => intro c hc; simp [wsGo] at hc
  | cons d rest ih =>
    intro c hc
    simp only [wsGo] at hc
    split at hc
    · split at hc
      · rcases ih true c hc with h | h
        · exact Or.inl (List.mem_cons_of_mem d h)
        · exact Or.inr h
      · rcases List.mem_cons.mp hc with rfl | hc
        · exact Or.inr rfl
        · rcases ih true c hc with h | h
          · exact Or.inl (List.mem_cons_of_mem d h)
          · exact Or.inr h
    · rcases List.mem_cons.mp hc with rfl | hc
      · exact Or.inl (List.mem_cons_self c rest)
      · rcases ih false c hc with h | h
        · exact Or.inl (List.mem_cons_of_mem d h)
        · exact Or.inr h

/-- Characters of `commaGo` output come from its input or are the `", "`
it inserts. -/
theorem mem_commaGo : ∀ (f : Nat) (l : List Char), ∀ c ∈ commaGo f l,
    c ∈ l ∨ c = ',' ∨ c = ' ' := by
  intro f
  induction f with
  | zero => intro l c hc; simp [commaGo] at hc; exact Or.inl hc
  | succ f ih =>
    intro l c hc
    cases l with
    | nil => simp [commaGo] at hc
    | cons d rest =>
      simp only [commaGo] at hc
      split at hc
      · split at hc
        · rename_i c2 r2 heq
          split at hc
          · rcases List.mem_cons.mp hc with rfl | hc
            · exact Or.inr (Or.inl rfl)
            · rcases List.mem_cons.mp hc with rfl | hc
              · exact Or.inr (Or.inr rfl)
              · rcases ih _ c hc with h | h
                · have h1 : c ∈ c2 :: r2 :=
                    (List.dropWhile_suffix (fun d => d == ',')).subset h
                  rw [← heq] at h1
                  exact Or.inl (List.mem_cons_of_mem d
                    ((List.dropWhile_suffix pyIsSpace).subset h1))
                · exact Or.inr h
          · rcases List.mem_cons.mp hc with rfl | hc
            · exact Or.inl (List.mem_cons_self c rest)
            · rcases ih rest c hc with h | h
              · exact Or.inl (List.mem_cons_of_mem d h)
              · exact Or.inr h
        · rcases List.mem_cons.mp hc with rfl | hc
          · exact Or.inl (List.mem_cons_self c rest)
          · rcases ih rest c hc with h | h
            · exact Or.inl (List.mem_cons_of_mem d h)
            · exact Or.inr h
      · rcases List.mem_cons.mp hc with rfl | hc
        · exact Or.inl (List.mem_cons_self c rest)
        · rcases ih rest c hc with h | h
          · exact Or.inl (List.mem_cons_of_mem d h)
          · exact Or.inr h

/-- Characters of the citation placeholder: underscores, `CIT`, digits. -/
theorem mem_citPlaceholder {c : Char} {k : Nat} (h : c ∈ citPlaceholder k) :
    c = '_' ∨ c = 'C' ∨ c = 'I' ∨ c = 'T' ∨ isDigitA c = true := by
  have hdig : ∀ f n, ∀ d ∈ natCharsGo f n, isDigitA d = true := by
    intro f
    induction f with
    | zero => intro n d hd; simp [natCharsGo] at hd
    | succ f ih =>
      intro n d hd
      simp only [natCharsGo] at hd
      split at hd
      · rename_i hlt
        simp only [List.mem_singleton] at hd
        subst hd
        simp only [isDigitA, digitChar, Bool.and_eq_true, decide_eq_true_eq]
        rw [toNat_charOfNat (by omega) (by omega)]
        omega
      · rename_i hlt
        rcases List.mem_append.mp hd with hd | hd
        · exact ih _ d hd
        · simp only [List.mem_singleton] at hd
          subst hd
          simp only [isDigitA, digitChar, Bool.and_eq_true, decide_eq_true_eq]
          rw [toNat_charOfNat (by omega) (by omega)]
          omega
  simp only [citPlaceholder, List.mem_cons] at h
  rcases h with rfl | rfl | rfl | rfl | rfl | rfl | h
  · exact Or.inl rfl
  · exact Or.inl rfl
  · exact Or.inr (Or.inl rfl)
  · exact Or.inr (Or.inr (Or.inl rfl))
  · exact Or.inr (Or.inr (Or.inr (Or.inl rfl)))
  · exact Or.inl rfl
  · rcases List.mem_append.mp h with h | h
    · exact Or.inr (Or.inr (Or.inr (Or.inr (hdig _ _ c h))))
    · have hund : c = '_' := by
        simp only [List.mem_cons, List.not_mem_nil, or_false] at h
        rcases h with rfl | rfl <;> rfl
      exact Or.inl hund

/-- Characters of `maskGo` output come from its input or from a
placeholder. -/
theorem mem_maskGo : ∀ (f k : Nat) (l : List Char), ∀ c ∈ maskGo f k l,
    c ∈ l ∨ c = '_' ∨ c = 'C' ∨ c = 'I' ∨ c = 'T' ∨ isDigitA c = true := by
  intro f
  induction f with
  | zero => intro k l c hc; simp only [maskGo] at hc; exact Or.inl hc
  | succ f ih =>
    intro k l c hc
    cases l with
    | nil => simp [maskGo] at hc
    | cons d rest =>
      simp only [maskGo] at hc
      split at hc
      · split at hc
        · rename_i us ds c2 r3 heq1 heq2 heq3
          split at hc
          · rcases List.mem_append.mp hc with hc | hc
            · exact Or.inr (mem_citPlaceholder hc)
            · rcases ih (k + 1) r3 c hc with h | h
              · refine Or.inl (List.mem_cons_of_mem d ?_)
                have h3 : c ∈ List.dropWhile isDigitA (List.dropWhile isUpperA rest) := by
                  rw [heq3]
                  exact List.mem_cons_of_mem c2 h
                exact (List.dropWhile_suffix isUpperA).subset
                  ((List.dropWhile_suffix isDigitA).subset h3)
              · exact Or.inr h
          · rcases List.mem_cons.mp hc with rfl | hc
            · exact Or.inl (List.mem_cons_self c rest)
            · rcases ih k rest c hc with h | h
              · exact Or.inl (List.mem_cons_of_mem d h)
              · exact Or.inr h
        · rcases List.mem_cons.mp hc with rfl | hc
          · exact Or.inl (List.mem_cons_self c rest)
          · rcases ih k rest c hc with h | h
            · exact Or.inl (List.mem_cons_of_mem d h)
            · exact Or.inr h
      · rcases List.mem_cons.mp hc with rfl | hc
        · exact Or.inl (List.mem_cons_self c rest)
        · rcases ih k rest c hc with h | h
          · exact Or.inl (List.mem_cons_of_mem d h)
          · exact Or.inr h

/-- Characters of `dropTrailing` output come from its input. -/
theorem mem_dropTrailing (p : Char → Bool) (l : List Char) :
    ∀ c ∈ dropTrailing p l, c ∈ l := by
  intro c hc
  unfold dropTrailing at hc
  have := (List.dropWhile_suffix p (l := l.reverse)).subset (List.mem_reverse.mp hc)
  exact List.mem_reverse.mp this

/-- Characters of `pyStrip` output come from its input. -/
theorem mem_pyStrip (l : List Char) : ∀ c ∈ pyStrip l, c ∈ l := by
  intro c hc
  exact (List.dropWhile_suffix pyIsSpace).subset (mem_dropTrailing _ _ c hc)

/-! ### Run-counting lemmas -/

/-- Run counting splits over an append, with the state threaded through. -/
theorem runCntGo_append :
    ∀ (x : List Char) (b : Bool) (y : List Char),
      runCntGo b (x ++ y) =
        runCntGo b x + runCntGo (x.foldl (fun _ c => isRunChar c) b) y := by
  intro x
  induction x with
  | nil => intro b y; simp [runCntGo]
  | cons c x' ih =>
    intro b y
    simp only [List.cons_append]
    cases hc : isRunChar c
    · rw [show runCntGo b (c :: (x' ++ y)) = runCntGo false (x' ++ y) by
        simp [runCntGo, hc]]
      rw [show runCntGo b (c :: x') = runCntGo false x' by simp [runCntGo, hc]]
      rw [show List.foldl (fun _ c => isRunChar c) b (c :: x')
          = List.foldl (fun _ c => isRunChar c) false x' by simp [hc]]
      exact ih false y
    · rw [show List.foldl (fun _ c => isRunChar c) b (c :: x')
          = List.foldl (fun _ c => isRunChar c) true x' by simp [hc]]
      cases b
      · rw [show runCntGo false (c :: (x' ++ y)) = 1 + runCntGo true (x' ++ y) by
          simp [runCntGo, hc]]
        rw [show runCntGo false (c :: x') = 1 + runCntGo true x' by simp [runCntGo, hc]]
        rw [ih true y]
        omega
      · rw [show runCntGo true (c :: (x' ++ y)) = runCntGo true (x' ++ y) by
          simp [runCntGo, hc]]
        rw [show runCntGo true (c :: x') = runCntGo true x' by simp [runCntGo, hc]]
        exact ih true y

/-- A string without run characters counts zero runs in any state. -/
theorem runCntGo_eq_zero {s : List Char} (h : ∀ c ∈ s, isRunChar c = false) :
    ∀ b, runCntGo b s = 0 := by
  induction s with
  | nil => intro b; simp [runCntGo]
  | cons c s' ih =>
    intro b
    simp only [runCntGo, h c (List.mem_cons_self c s')]
    simp only [Bool.false_eq_true, if_false]
    exact ih (fun d hd => h d (List.mem_cons_of_mem c hd)) false

/-- The state-fold over non-run characters stays `false`. -/
theorem foldl_run_false {w : List Char} (h : ∀ c ∈ w, isRunChar c = false) :
    w.foldl (fun _ c => isRunChar c) false = false := by
  induction w with
  | nil => rfl
  | cons c w' ih =>
    simp only [List.foldl_cons, h c (List.mem_cons_self c w')]
    exact ih (fun d hd => h d (List.mem_cons_of_mem c hd))

/-- Appending non-run characters does not change the run count. -/
theorem runCnt_append_nonrun {x s : List Char} (h : ∀ c ∈ s, isRunChar c = false) :
    runCntGo false (x ++ s) = runCntGo false x := by
  rw [runCntGo_append]
  rw [runCntGo_eq_zero h]
  omega

/-- Prepending non-run characters does not change the run count. -/
theorem runCnt_prepend_nonrun {x w : List Char} (h : ∀ c ∈ w, isRunChar c = false) :
    runCntGo false (w ++ x) = runCntGo false x := by
  rw [runCntGo_append, runCntGo_eq_zero h, foldl_run_false h]
  omega

/-- Decomposition of `dropTrailing`: the input is the output followed by a
run of characters satisfying the predicate. -/
theorem dropTrailing_decomp (p : Char → Bool) (l : List Char) :
    ∃ s, l = dropTrailing p l ++ s ∧ ∀ c ∈ s, p c = true := by
  refine ⟨(l.reverse.takeWhile p).reverse, ?_, ?_⟩
  · unfold dropTrailing
    calc l = l.reverse.reverse := (List.reverse_reverse l).symm
      _ = (l.reverse.takeWhile p ++ l.reverse.dropWhile p).reverse := by
          rw [List.takeWhile_append_dropWhile]
      _ = (l.reverse.dropWhile p).reverse ++ (l.reverse.takeWhile p).reverse := by
          rw [List.reverse_append]
  · intro c hc
    exact List.mem_takeWhile_imp (List.mem_reverse.mp hc)

/-- Whitespace characters are not run characters. -/
theorem isRunChar_of_space {c : Char} (h : pyIsSpace c = true) : isRunChar c = false := by
  rw [Bool.eq_false_iff]
  intro hcon
  simp only [pyIsSpace, Bool.or_eq_true, beq_iff_eq] at h
  simp only [isRunChar, isLowerA, Bool.or_eq_true, Bool.and_eq_true, decide_eq_true_eq,
    beq_iff_eq] at hcon
  omega

/-- Trailing-punctuation characters are not run characters. -/
theorem isRunChar_of_trailPunct {c : Char} (h : isTrailPunct c = true) :
    isRunChar c = false := by
  simp only [isTrailPunct, Bool.or_eq_true, beq_iff_eq] at h
  rcases h with (rfl | rfl) | rfl <;> decide

/-- Stripping whitespace from both ends preserves the run count. -/
theorem runCount_pyStrip (l : List Char) : runCount (pyStrip l) = runCount l := by
  unfold runCount
  obtain ⟨s, hs, hsp⟩ := dropTrailing_decomp pyIsSpace (l.dropWhile pyIsSpace)
  have hpre := List.takeWhile_append_dropWhile pyIsSpace l
  conv_rhs => rw [← hpre]
  rw [runCnt_prepend_nonrun
    (fun c hc => isRunChar_of_space (List.mem_takeWhile_imp hc))]
  conv_rhs => rw [hs]
  rw [runCnt_append_nonrun (fun c hc => isRunChar_of_space (hsp c hc))]
  rfl

/-- Stripping trailing punctuation preserves the run count. -/
theorem runCount_dropTrailing_punct (l : List Char) :
    runCount (dropTrailing isTrailPunct l) = runCount l := by
  unfold runCount
  obtain ⟨s, hs, hsp⟩ := dropTrailing_decomp isTrailPunct l
  conv_rhs => rw [hs]
  rw [runCnt_append_nonrun (fun c hc => isRunChar_of_trailPunct (hsp c hc))]

/-! ### Splitting lemmas -/

/-- Words produced by the splitter are non-empty. -/
theorem splitWsGo_ne_nil :
    ∀ (l acc : List Char), ∀ w ∈ splitWsGo acc l, w ≠ [] := by
  intro l
  induction l with
  | nil =>
    intro acc w hw
    simp only [splitWsGo] at hw
    split at hw
    · simp at hw
    · rename_i hne
      simp only [List.mem_singleton] at hw
      subst hw
      simp only [ne_eq, List.reverse_eq_nil_iff]
      simpa [List.isEmpty_iff] using hne
  | cons c rest ih =>
    intro acc w hw
    simp only [splitWsGo] at hw
    split at hw
    · split at hw
      · exact ih [] w hw
      · rename_i hne
        rcases List.mem_cons.mp hw with rfl | hw
        · simp only [ne_eq, List.reverse_eq_nil_iff]
          simpa [List.isEmpty_iff] using hne
        · exact ih [] w hw
    · exact ih (c :: acc) w hw

/-- Words produced by the splitter are whitespace-free (given a
whitespace-free accumulator). -/
theorem splitWsGo_wsfree :
    ∀ (l acc : List Char), (∀ c ∈ acc, pyIsSpace c = false) →
      ∀ w ∈ splitWsGo acc l, ∀ c ∈ w, pyIsSpace c = false := by
  intro l
  induction l with
  | nil =>
    intro acc hacc w hw c hc
    simp only [splitWsGo] at hw
    split at hw
    · simp at hw
    · simp only [List.mem_singleton] at hw
      subst hw
      exact hacc c (List.mem_reverse.mp hc)
  | cons d rest ih =>
    intro acc hacc w hw c hc
    simp only [splitWsGo] at hw
    split at hw
    · split at hw
      · exact ih [] (by simp) w hw c hc
      · rcases List.mem_cons.mp hw with rfl | hw
        · exact hacc c (List.mem_reverse.mp hc)
        · exact ih [] (by simp) w hw c hc
    · rename_i hd
      refine ih (d :: acc) ?_ w hw c hc
      intro e he
      rcases List.mem_cons.mp he with rfl | he
      · exact Bool.eq_false_iff.mpr hd
      · exact hacc e he
/-- Characters of splitter words come from the accumulator or the input. -/
theorem splitWsGo_mem_chars :
    ∀ (l acc : List Char), ∀ w ∈ splitWsGo acc l, ∀ c ∈ w, c ∈ acc ∨ c ∈ l := by
  intro l
  induction l with
  | nil =>
    intro acc w hw c hc
    simp only [splitWsGo] at hw
    split at hw
    · simp at hw
    · simp only [List.mem_singleton] at hw
      subst hw
      exact Or.inl (List.mem_reverse.mp hc)
  | cons d rest ih =>
    intro acc w hw c hc
    simp only [splitWsGo] at hw
    split at hw
    · split at hw
      · rcases ih [] w hw c hc with h | h
        · simp at h
        · exact Or.inr (List.mem_cons_of_mem d h)
      · rcases List.mem_cons.mp hw with rfl | hw
        · exact Or.inl (List.mem_reverse.mp hc)
        · rcases ih [] w hw c hc with h | h
          · simp at h
          · exact Or.inr (List.mem_cons_of_mem d h)
    · rcases ih (d :: acc) w hw c hc with h | h
      · rcases List.mem_cons.mp h with rfl | h
        · exact Or.inr (List.mem_cons_self c rest)
        · exact Or.inl h
      · exact Or.inr (List.mem_cons_of_mem d h)

/-- Shape of `intercalate` on a two-or-more-element list. -/
theorem intercalate_cons₂ (s a b : List Char) (ts : List (List Char)) :
    List.intercalate s (a :: b :: ts) = a ++ s ++ List.intercalate s (b :: ts) := by
  simp [List.intercalate, List.intersperse_cons_cons]

/-- Shape of `intercalate` on a singleton. -/
theorem intercalate_single (s a : List Char) : List.intercalate s [a] = a := by
  simp [List.intercalate]

/-- The splitter consumes a whitespace-free word into its accumulator. -/
theorem splitWsGo_append_word :
    ∀ (w acc l : List Char), (∀ c ∈ w, pyIsSpace c = false) →
      splitWsGo acc (w ++ l) = splitWsGo (w.reverse ++ acc) l := by
  intro w
  induction w with
  | nil => intro acc l _; simp
  | cons c w' ih =>
    intro acc l hw
    simp only [List.cons_append, splitWsGo, hw c (List.mem_cons_self c w'),
      Bool.false_eq_true, if_false, List.append_eq]
    rw [ih (c :: acc) l (fun d hd => hw d (List.mem_cons_of_mem c hd))]
    simp

/-- The splitter at a space emits the accumulated word. -/
theorem splitWsGo_space (acc l : List Char) :
    splitWsGo acc (' ' :: l) =
      if acc.isEmpty then splitWsGo [] l else acc.reverse :: splitWsGo [] l := by
  simp [splitWsGo, pyIsSpace]

/-- Splitting the space-join of non-empty whitespace-free words recovers the
words. -/
theorem splitWs_intercalate :
    ∀ ts : List (List Char), (∀ w ∈ ts, w ≠ []) →
      (∀ w ∈ ts, ∀ c ∈ w, pyIsSpace c = false) →
      splitWs (List.intercalate [' '] ts) = ts := by
  intro ts
  induction ts with
  | nil => intro _ _; simp [List.intercalate, splitWs, splitWsGo]
  | cons w ts' ih =>
    intro hne hws
    cases ts' with
    | nil =>
      rw [intercalate_single]
      unfold splitWs
      rw [show w = w ++ [] by simp]
      rw [splitWsGo_append_word w [] [] (hws w (List.mem_cons_self w []))]
      simp only [splitWsGo, List.append_nil]
      rw [if_neg (by
        simp only [List.isEmpty_iff, List.reverse_eq_nil_iff]
        exact hne w (List.mem_cons_self w []))]
      simp
    | cons w' ts'' =>
      rw [intercalate_cons₂]
      unfold splitWs
      rw [List.append_assoc]
      rw [splitWsGo_append_word w [] _ (hws w (List.mem_cons_self w _))]
      simp only [List.singleton_append]
      rw [splitWsGo_space]
      rw [if_neg (by
        simp only [List.isEmpty_iff, List.append_nil, List.reverse_eq_nil_iff]
        exact hne w (List.mem_cons_self w _))]
      simp only [List.append_nil, List.reverse_reverse]
      have ih' := ih (fun v hv => hne v (List.mem_cons_of_mem w hv))
        (fun v hv => hws v (List.mem_cons_of_mem w hv))
      unfold splitWs at ih'
      rw [ih']

/-- The run counts of the split words sum to the run count of the string. -/
theorem splitWsGo_sum_runCount :
    ∀ (l acc : List Char),
      ((splitWsGo acc l).map runCount).sum = runCntGo false (acc.reverse ++ l) := by
  intro l
  induction l with
  | nil =>
    intro acc
    simp only [splitWsGo]
    split
    · rename_i h
      simp only [List.isEmpty_iff] at h
      subst h
      simp [runCntGo]
    · simp [runCount]
  | cons c rest ih =>
    intro acc
    by_cases hc : pyIsSpace c = true
    · have hcount : ∀ b, runCntGo b (c :: rest) = runCntGo false rest := by
        intro b
        simp [runCntGo, isRunChar_of_space hc]
      by_cases hacc : acc.isEmpty
      · simp only [splitWsGo, hc, if_true, hacc, if_true]
        rw [ih []]
        simp only [List.isEmpty_iff] at hacc
        subst hacc
        simp only [List.reverse_nil, List.nil_append]
        rw [hcount false]
      · simp only [splitWsGo, hc, if_true, hacc]
        simp only [Bool.false_eq_true, if_false, List.map_cons, List.sum_cons]
        rw [ih []]
        simp only [List.reverse_nil, List.nil_append]
        rw [runCntGo_append, hcount]
        rfl
    · have hc' : pyIsSpace c = false := Bool.eq_false_iff.mpr hc
      simp only [splitWsGo, hc', Bool.false_eq_true, if_false]
      rw [ih (c :: acc)]
      simp only [List.reverse_cons, List.append_assoc, List.singleton_append]

/-- Total run count over the split of a string. -/
theorem splitWs_sum_runCount (l : List Char) :
    ((splitWs l).map runCount).sum = runCount l := by
  unfold splitWs
  rw [splitWsGo_sum_runCount]
  rfl

/-! ### Truncation lemmas -/

/-- With no citation-shaped token remaining, the re-append loop is the
identity. -/
theorem appendCits_of_noncit :
    ∀ (rem kept : List (List Char)), (∀ r ∈ rem, isCitTok r = false) →
      appendCits kept rem = kept := by
  intro rem
  induction rem with
  | nil => intro kept _; rfl
  | cons r rem' ih =>
    intro kept h
    unfold appendCits
    simp only [List.foldl_cons, h r (List.mem_cons_self r rem'), Bool.false_and,
      Bool.false_eq_true, if_false]
    exact ih kept (fun q hq => h q (List.mem_cons_of_mem r hq))

/-- On citation-free token lists the truncation loop is `simpleTrunc`. -/
theorem truncGo_eq_simpleTrunc (maxW : Nat) :
    ∀ ts : List (List Char), (∀ t ∈ ts, isCitTok t = false) →
      ∀ cnt kept, truncGo maxW ts cnt kept = kept ++ simpleTrunc maxW cnt ts := by
  intro ts
  induction ts with
  | nil => intro _ cnt kept; simp [truncGo, simpleTrunc]
  | cons t rest ih =>
    intro h cnt kept
    simp only [truncGo, simpleTrunc, h t (List.mem_cons_self t rest),
      Bool.false_eq_true, if_false]
    split
    · rw [appendCits_of_noncit rest _ (fun q hq => h q (List.mem_cons_of_mem t hq))]
    · rw [ih (fun q hq => h q (List.mem_cons_of_mem t hq))]
      simp

/-- The truncation loop is idempotent. -/
theorem simpleTrunc_idem (maxW : Nat) :
    ∀ (ts : List (List Char)) (cnt : Nat),
      simpleTrunc maxW cnt (simpleTrunc maxW cnt ts) = simpleTrunc maxW cnt ts := by
  intro ts
  induction ts with
  | nil => intro cnt; simp [simpleTrunc]
  | cons t rest ih =>
    intro cnt
    simp only [simpleTrunc]
    split
    · rename_i hle
      simp [simpleTrunc, hle]
    · rename_i hle
      simp only [simpleTrunc, hle, if_false]
      rw [ih (cnt + runCount t)]

/-- Kept tokens come from the input token list. -/
theorem simpleTrunc_mem (maxW : Nat) :
    ∀ (ts : List (List Char)) (cnt : Nat), ∀ t ∈ simpleTrunc maxW cnt ts, t ∈ ts := by
  intro ts
  induction ts with
  | nil => intro cnt t ht; simp [simpleTrunc] at ht
  | cons q rest ih =>
    intro cnt t ht
    simp only [simpleTrunc] at ht
    split at ht
    · simp only [List.mem_singleton] at ht
      subst ht
      exact List.mem_cons_self t rest
    · rcases List.mem_cons.mp ht with rfl | ht
      · exact List.mem_cons_self t rest
      · exact List.mem_cons_of_mem q (ih _ t ht)

/-- Upper bound on the kept run count when every token holds at most one
run. -/
theorem simpleTrunc_sum_le (maxW : Nat) :
    ∀ ts : List (List Char), (∀ t ∈ ts, runCount t ≤ 1) →
      ∀ cnt, cnt < maxW →
        cnt + ((simpleTrunc maxW cnt ts).map runCount).sum ≤ maxW := by
  intro ts
  induction ts with
  | nil => intro _ cnt h; simp [simpleTrunc]; omega
  | cons t rest ih =>
    intro h cnt hcnt
    simp only [simpleTrunc]
    split
    · rename_i hle
      have ht := h t (List.mem_cons_self t rest)
      simp only [List.map_cons, List.map_nil, List.sum_cons, List.sum_nil]
      omega
    · rename_i hle
      simp only [List.map_cons, List.sum_cons]
      have := ih (fun q hq => h q (List.mem_cons_of_mem t hq)) (cnt + runCount t)
        (by omega)
      omega

/-- Lower bound on the kept run count. -/
theorem simpleTrunc_sum_ge (maxW : Nat) :
    ∀ (ts : List (List Char)) (cnt : Nat),
      min (cnt + (ts.map runCount).sum) maxW ≤
        cnt + ((simpleTrunc maxW cnt ts).map runCount).sum := by
  intro ts
  induction ts with
  | nil => intro cnt; simp [simpleTrunc]
  | cons t rest ih =>
    intro cnt
    simp only [simpleTrunc, List.map_cons, List.sum_cons]
    split
    · rename_i hle
      simp only [List.map_cons, List.map_nil, List.sum_cons, List.sum_nil]
      omega
    · rename_i hle
      have := ih (cnt + runCount t)
      simp only [List.map_cons, List.sum_cons]
      omega

/-! ### Shape invariants of the normalised text -/

/-- A citation-shaped token contains an uppercase letter. -/
theorem isCitTok_has_upper :
    ∀ w : List Char, isCitTok w = true → ∃ c ∈ w, isUpperA c = true := by
  intro w h
  unfold isCitTok at h
  split at h
  · rename_i rest
    simp only [Bool.and_eq_true, Bool.not_eq_true', List.isEmpty_eq_false_iff_exists_mem,
      List.isEmpty_iff, ne_eq] at h
    obtain ⟨⟨hus, _⟩, _⟩ := h
    cases hu : rest.takeWhile isUpperA with
    | nil =>
      rw [hu] at hus
      simp [List.isEmpty_nil] at hus
    | cons u us' =>
      have hmem : u ∈ rest.takeWhile isUpperA := by
        rw [hu]; exact List.mem_cons_self u us'
      exact ⟨u, List.mem_cons_of_mem '[' ((List.takeWhile_prefix isUpperA).subset hmem),
        List.mem_takeWhile_imp hmem⟩
  · exact absurd h (by simp)

/-- The normalised text contains no uppercase character. -/
theorem no_upper_normalizeText (x : List Char) :
    ∀ c ∈ normalizeText x, isUpperA c = false := by
  intro c hc
  unfold normalizeText at hc
  have h4 := mem_pyStrip _ c hc
  rcases mem_wsGo false _ c h4 with h3 | rfl
  · rcases mem_commaGo _ _ c h3 with h3b | rfl | rfl
    · have h3a := mem_runGo '?' false _ c h3b
      have h2 := mem_runGo '.' false _ c h3a
      have h1 := List.mem_of_mem_filter h2
      rcases List.mem_map.mp h1 with ⟨d, _, rfl⟩
      exact isUpperA_pyToLower d
    · decide
    · decide
  · decide

/-- Characters of the joined-and-stripped token list come from the tokens or
are separator spaces. -/
theorem mem_intercalate_space :
    ∀ ts : List (List Char), ∀ c ∈ List.intercalate [' '] ts,
      (∃ w ∈ ts, c ∈ w) ∨ c = ' ' := by
  intro ts
  induction ts with
  | nil => intro c hc; simp [List.intercalate] at hc
  | cons w ts' ih =>
    cases ts' with
    | nil =>
      rw [intercalate_single]
      intro c hc
      exact Or.inl ⟨w, List.mem_cons_self w [], hc⟩
    | cons w' ts'' =>
      rw [intercalate_cons₂]
      intro c hc
      rcases List.mem_append.mp hc with hc | hc
      · rcases List.mem_append.mp hc with hc | hc
        · exact Or.inl ⟨w, List.mem_cons_self w _, hc⟩
        · simp only [List.mem_singleton] at hc
          exact Or.inr hc
      · rcases ih c hc with ⟨v, hv, hcv⟩ | hc
        · exact Or.inl ⟨v, List.mem_cons_of_mem w hv, hcv⟩
        · exact Or.inr hc

/-- Characters of the final output string come from the kept tokens or are
separator spaces. -/
theorem mem_output_chars {kept : List (List Char)} {c : Char}
    (hc : c ∈ pyStrip (dropTrailing isTrailPunct
      (pyStrip (List.intercalate [' '] kept)))) :
    (∃ w ∈ kept, c ∈ w) ∨ c = ' ' := by
  have h1 := mem_pyStrip _ c hc
  have h2 := mem_dropTrailing _ _ c h1
  have h3 := mem_pyStrip _ c h2
  exact mem_intercalate_space kept c h3

/-- On a string whose tokens are citation-free, the spec's word count is the
plain run-count sum. -/
theorem wordCountExCit_eq_sum {l : List Char}
    (h : ∀ t ∈ splitWs l, isCitTok t = false) :
    wordCountExCit l = ((splitWs l).map runCount).sum := by
  unfold wordCountExCit
  congr 1
  refine List.map_congr_left ?_
  intro t ht
  simp [h t ht]

/-! ### Claim C5: the enforcement word budget -/

/-- Claim C5 (amended).  The enforcement output's word count (maximal
`[a-z']+` runs, excluding citation-shaped tokens) is at most the code's
budget `max(6, min(35, floor(userWords*1.2)+4))` — with the `max(6, ·)` floor
and floor instead of round — PROVIDED every whitespace token of the
normalised text carries at most one run; that hypothesis is essential,
because the loop checks the budget only after adding a whole token's run
count, so a multi-run token like `a-b-c-d-e-f-g-h` can overshoot the budget.
Unconditionally, the output keeps at least 6 words whenever the normalised
text has at least 6 runs, and the citation re-append clause is vacuous: no
token of the normalised text ever matches the citation pattern, because the
text is entirely lowercase by then (see C1). -/
theorem enforcement_word_budget (u x : List Char) :
    ((∀ t ∈ splitWs (normalizeText x), runCount t ≤ 1) →
      wordCountExCit (enforceStyleRules u x) ≤ maxWordsFor u) ∧
    (6 ≤ wordCountExCit (normalizeText x) →
      6 ≤ wordCountExCit (enforceStyleRules u x)) ∧
    (∀ t ∈ splitWs (normalizeText x), isCitTok t = false) := by
  have hnoncit : ∀ t ∈ splitWs (normalizeText x), isCitTok t = false := by
    intro t ht
    rw [Bool.eq_false_iff]
    intro hcon
    obtain ⟨c, hc, hupper⟩ := isCitTok_has_upper t hcon
    rcases splitWsGo_mem_chars _ [] t ht c hc with h | h
    · simp at h
    · rw [no_upper_normalizeText x c h] at hupper
      simp at hupper
  have hmaxW6 : 6 ≤ maxWordsFor u := by
    unfold maxWordsFor
    exact le_max_left _ _
  by_cases hx : x.isEmpty
  · have hx' : x = [] := List.isEmpty_iff.mp hx
    subst hx'
    have henf : enforceStyleRules u [] = [] := by simp [enforceStyleRules]
    refine ⟨?_, ?_, hnoncit⟩
    · intro _
      rw [henf]
      exact Nat.le_trans (by decide) hmaxW6
    · intro h6
      exact absurd h6 (by decide)
  · have hxe : x.isEmpty = false := Bool.eq_false_iff.mpr hx
    have henf : enforceStyleRules u x =
        pyStrip (dropTrailing isTrailPunct (pyStrip (List.intercalate [' ']
          (simpleTrunc (maxWordsFor u) 0 (splitWs (normalizeText x)))))) := by
      simp only [enforceStyleRules, hxe, Bool.false_eq_true, if_false]
      rw [truncGo_eq_simpleTrunc (maxWordsFor u) _ hnoncit 0 []]
      rw [List.nil_append]
    have hkeptmem : ∀ w ∈ simpleTrunc (maxWordsFor u) 0 (splitWs (normalizeText x)),
        w ∈ splitWs (normalizeText x) := simpleTrunc_mem (maxWordsFor u) _ 0
    have hkept_ne : ∀ w ∈ simpleTrunc (maxWordsFor u) 0 (splitWs (normalizeText x)),
        w ≠ [] := fun w hw => splitWsGo_ne_nil _ [] w (hkeptmem w hw)
    have hkept_ws : ∀ w ∈ simpleTrunc (maxWordsFor u) 0 (splitWs (normalizeText x)),
        ∀ c ∈ w, pyIsSpace c = false :=
      fun w hw => splitWsGo_wsfree _ [] (by simp) w (hkeptmem w hw)
    have hout_chars : ∀ c ∈ enforceStyleRules u x, isUpperA c = false := by
      intro c hc
      rw [henf] at hc
      rcases mem_output_chars hc with ⟨w, hw, hcw⟩ | rfl
      · rcases splitWsGo_mem_chars _ [] w (hkeptmem w hw) c hcw with h | h
        · simp at h
        · exact no_upper_normalizeText x c h
      · decide
    have hout_noncit : ∀ t ∈ splitWs (enforceStyleRules u x), isCitTok t = false := by
      intro t ht
      rw [Bool.eq_false_iff]
      intro hcon
      obtain ⟨c, hc, hupper⟩ := isCitTok_has_upper t hcon
      rcases splitWsGo_mem_chars _ [] t ht c hc with h | h
      · simp at h
      · rw [hout_chars c h] at hupper
        simp at hupper
    have hcount : wordCountExCit (enforceStyleRules u x) =
        ((simpleTrunc (maxWordsFor u) 0 (splitWs (normalizeText x))).map runCount).sum := by
      rw [wordCountExCit_eq_sum hout_noncit, splitWs_sum_runCount, henf]
      rw [runCount_pyStrip, runCount_dropTrailing_punct, runCount_pyStrip]
      rw [← splitWs_sum_runCount (List.intercalate [' ']
        (simpleTrunc (maxWordsFor u) 0 (splitWs (normalizeText x))))]
      rw [splitWs_intercalate _ hkept_ne hkept_ws]
    have hts_sum : wordCountExCit (normalizeText x) =
        ((splitWs (normalizeText x)).map runCount).sum := wordCountExCit_eq_sum hnoncit
    refine ⟨?_, ?_, hnoncit⟩
    · intro h1
      rw [hcount]
      have hle := simpleTrunc_sum_le (maxWordsFor u) _ h1 0 (by omega)
      omega
    · intro h6
      rw [hcount]
      have hge := simpleTrunc_sum_ge (maxWordsFor u) (splitWs (normalizeText x)) 0
      rw [hts_sum] at h6
      omega

/-- Witness for `enforcement_word_budget` on the single-run-token input
`"a b c d e f g"` with the one-word user message `"hi"`. -/
theorem enforcement_word_budget_witness :
    (∀ t ∈ splitWs (normalizeText "a b c d e f g".data), runCount t ≤ 1) ∧
    wordCountExCit (enforceStyleRules "hi".data "a b c d e f g".data) ≤
      maxWordsFor "hi".data ∧
    6 ≤ wordCountExCit (enforceStyleRules "hi".data "a b c d e f g".data) := by
  have h1 : ∀ t ∈ splitWs (normalizeText "a b c d e f g".data), runCount t ≤ 1 := by
    decide
  have h := enforcement_word_budget "hi".data "a b c d e f g".data
  exact ⟨h1, h.1 h1, h.2.1 (by decide)⟩

/-! ### Adjacent-pair predicates and second-pass fixpoint lemmas -/

/-- Unfolding `noAdjBy` over a cons cell. -/
theorem noAdjBy_cons {p : Char → Char → Bool} {c : Char} {l : List Char} :
    noAdjBy p (c :: l) = true ↔
      (∀ d, l.head? = some d → p c d = false) ∧ noAdjBy p l = true := by
  cases l with
  | nil => simp [noAdjBy]
  | cons d r =>
    simp only [noAdjBy, Bool.and_eq_true, Bool.not_eq_true', List.head?_cons,
      Option.some.injEq]
    constructor
    · rintro ⟨h1, h2⟩
      exact ⟨fun e he => he ▸ h1, h2⟩
    · rintro ⟨h1, h2⟩
      exact ⟨h1 d rfl, h2⟩

/-- The pair predicate restricted to a tail. -/
theorem noAdjBy_tail {p : Char → Char → Bool} {a : Char} {l : List Char}
    (h : noAdjBy p (a :: l) = true) : noAdjBy p l = true :=
  (noAdjBy_cons.mp h).2

/-- Pair freedom projects to the left part of an append. -/
theorem noAdjBy_of_append_left {p : Char → Char → Bool} :
    ∀ {x y : List Char}, noAdjBy p (x ++ y) = true → noAdjBy p x = true := by
  intro x
  induction x with
  | nil => intro y _; rfl
  | cons a x' ih =>
    intro y h
    rw [List.cons_append] at h
    obtain ⟨h1, h2⟩ := noAdjBy_cons.mp h
    refine noAdjBy_cons.mpr ⟨?_, ih h2⟩
    intro d hd
    refine h1 d ?_
    cases x' with
    | nil => simp at hd
    | cons b x'' => simpa using hd

/-- Pair freedom projects to the right part of an append. -/
theorem noAdjBy_of_append_right {p : Char → Char → Bool} :
    ∀ {x y : List Char}, noAdjBy p (x ++ y) = true → noAdjBy p y = true := by
  intro x
  induction x with
  | nil => intro y h; simpa using h
  | cons a x' ih =>
    intro y h
    rw [List.cons_append] at h
    exact ih (noAdjBy_tail h)

/-- A list whose characters all fail `q` is free of `q`-`q` pairs. -/
theorem noAdjBy_of_all_false {q : Char → Bool} :
    ∀ l : List Char, (∀ c ∈ l, q c = false) →
      noAdjBy (fun a b => q a && q b) l = true := by
  intro l
  induction l with
  | nil => intro _; rfl
  | cons c r ih =>
    intro h
    refine noAdjBy_cons.mpr ⟨?_, ih (fun d hd => h d (List.mem_cons_of_mem c hd))⟩
    intro d _
    simp [h c (List.mem_cons_self c r)]

/-- A comma-free string is a fixpoint of the comma-collapsing scan. -/
theorem commaGo_eq_self :
    ∀ (f : Nat) (l : List Char), (∀ c ∈ l, (c == ',') = false) → commaGo f l = l := by
  intro f
  induction f with
  | zero => intro l _; rfl
  | succ f ih =>
    intro l h
    cases l with
    | nil => rfl
    | cons c rest =>
      simp only [commaGo, h c (List.mem_cons_self c rest), Bool.false_eq_true, if_false]
      rw [ih rest (fun d hd => h d (List.mem_cons_of_mem c hd))]

/-- An uppercase-free string is a fixpoint of the citation-masking scan. -/
theorem maskGo_eq_self :
    ∀ (f k : Nat) (l : List Char), (∀ c ∈ l, isUpperA c = false) → maskGo f k l = l := by
  intro f
  induction f with
  | zero => intro k l _; rfl
  | succ f ih =>
    intro k l h
    cases l with
    | nil => rfl
    | cons c rest =>
      have hrest : ∀ d ∈ rest, isUpperA d = false :=
        fun d hd => h d (List.mem_cons_of_mem c hd)
      have hus : rest.takeWhile isUpperA = [] := by
        cases rest with
        | nil => rfl
        | cons d r =>
          rw [List.takeWhile_cons, if_neg]
          rw [hrest d (List.mem_cons_self d r)]
          simp
      by_cases hc : (c == '[') = true
      · simp only [maskGo, hc, if_true, hus]
        rw [ih k rest hrest]
      · simp only [maskGo, hc, Bool.false_eq_true, if_false]
        rw [ih k rest hrest]

/-- An uppercase-free string is a fixpoint of lowercasing. -/
theorem pyLower_eq_self_list {l : List Char} (h : ∀ c ∈ l, isUpperA c = false) :
    l.map pyToLower = l := by
  calc l.map pyToLower = l.map id := List.map_congr_left (fun c hc => pyToLower_eq_self (h c hc))
    _ = l := List.map_id l

/-- A string without loud punctuation is a fixpoint of the punctuation
filter. -/
theorem filter_strip_eq_self {l : List Char} (h : ∀ c ∈ l, isStripChar c = false) :
    l.filter (fun c => !(isStripChar c)) = l := by
  refine List.filter_eq_self.mpr ?_
  intro c hc
  simp [h c hc]

/-- A list with no trailing-predicate characters is a fixpoint of
`dropTrailing`. -/
theorem dropTrailing_eq_self {p : Char → Bool} {l : List Char}
    (h : ∀ c ∈ l, p c = false) : dropTrailing p l = l := by
  unfold dropTrailing
  have hd : l.reverse.dropWhile p = l.reverse := by
    cases hrev : l.reverse with
    | nil => rfl
    | cons c r =>
      rw [List.dropWhile_cons, if_neg]
      have : c ∈ l := List.mem_reverse.mp (hrev ▸ List.mem_cons_self c r)
      rw [h c this]
      simp
  rw [hd, List.reverse_reverse]

/-- A string whose two ends are non-whitespace is a fixpoint of `strip`. -/
theorem pyStrip_eq_self {l : List Char}
    (hhead : ∀ c, l.head? = some c → pyIsSpace c = false)
    (hlast : ∀ c, l.reverse.head? = some c → pyIsSpace c = false) :
    pyStrip l = l := by
  unfold pyStrip dropTrailing
  have h1 : l.dropWhile pyIsSpace = l := by
    cases l with
    | nil => rfl
    | cons c r =>
      rw [List.dropWhile_cons, if_neg]
      rw [hhead c (by simp)]
      simp
  rw [h1]
  have h2 : l.reverse.dropWhile pyIsSpace = l.reverse := by
    cases hrev : l.reverse with
    | nil => rfl
    | cons c r =>
      rw [List.dropWhile_cons, if_neg]
      rw [hlast c (by rw [hrev]; simp)]
      simp
  rw [h2, List.reverse_reverse]

/-- The run-collapser in emit state preserves the head. -/
theorem head_runGo_false (t : Char) (l : List Char) :
    (runGo t false l).head? = l.head? := by
  cases l with
  | nil => rfl
  | cons c rest =>
    by_cases hc : (c == t) = true <;> simp [runGo, hc]

/-- After an emitted `t`, the next emitted character differs from `t`. -/
theorem head_runGo_true_ne (t : Char) :
    ∀ l : List Char, ∀ c, (runGo t true l).head? = some c → (c == t) = false := by
  intro l
  induction l with
  | nil => intro c hc; simp [runGo] at hc
  | cons d rest ih =>
    intro c hc
    by_cases hd : (d == t) = true
    · simp only [runGo, hd, if_true] at hc
      exact ih c hc
    · simp only [runGo, hd, Bool.false_eq_true, if_false, List.head?_cons,
        Option.some.injEq] at hc
      subst hc
      exact Bool.eq_false_iff.mpr hd

/-- A string without adjacent `t`-pairs is a fixpoint of the `t`-run
collapser. -/
theorem runGo_eq_self (t : Char) :
    ∀ l : List Char, noAdjBy (fun a b => a == t && b == t) l = true →
      (runGo t false l = l ∧
        ((∀ c, l.head? = some c → (c == t) = false) → runGo t true l = l)) := by
  intro l
  induction l with
  | nil => exact fun _ => ⟨rfl, fun _ => rfl⟩
  | cons c rest ih =>
    intro h
    obtain ⟨hpair, htail⟩ := noAdjBy_cons.mp h
    obtain ⟨ih1, ih2⟩ := ih htail
    constructor
    · by_cases hct : (c == t) = true
      · have hc : c = t := by simpa using hct
        have hr : runGo t true rest = rest := by
          refine ih2 ?_
          intro d hd
          have := hpair d hd
          subst hc
          simpa using this
        simp [runGo, hct, hr]
      · simp only [runGo, hct, Bool.false_eq_true, if_false]
        rw [ih1]
    · intro hhead
      have hct : (c == t) = false := hhead c (by simp)
      simp only [runGo, hct, Bool.false_eq_true, if_false]
      rw [ih1]

/-- A single-spaced string (no adjacent whitespace, every whitespace
character a plain space) is a fixpoint of the whitespace collapser. -/
theorem wsGo_eq_self :
    ∀ l : List Char,
      noAdjBy (fun a b => pyIsSpace a && pyIsSpace b) l = true →
      (∀ c ∈ l, pyIsSpace c = true → c = ' ') →
      (wsGo false l = l ∧
        ((∀ c, l.head? = some c → pyIsSpace c = false) → wsGo true l = l)) := by
  intro l
  induction l with
  | nil => exact fun _ _ => ⟨rfl, fun _ => rfl⟩
  | cons c rest ih =>
    intro h hsp
    obtain ⟨hpair, htail⟩ := noAdjBy_cons.mp h
    obtain ⟨ih1, ih2⟩ :=
      ih htail (fun d hd => hsp d (List.mem_cons_of_mem c hd))
    constructor
    · by_cases hc : pyIsSpace c = true
      · have hc' : c = ' ' := hsp c (List.mem_cons_self c rest) hc
        have hr : wsGo true rest = rest := by
          refine ih2 ?_
          intro d hd
          have := hpair d hd
          rw [hc] at this
          simpa using this
        subst hc'
        simp only [wsGo, hc, if_true, Bool.false_eq_true, if_false, hr]
      · have hc' : pyIsSpace c = false := Bool.eq_false_iff.mpr hc
        simp only [wsGo, hc', Bool.false_eq_true, if_false]
        rw [ih1]
    · intro hhead
      have hc : pyIsSpace c = false := hhead c (by simp)
      simp only [wsGo, hc, Bool.false_eq_true, if_false]
      rw [ih1]

/-- Output of the `t`-run collapser has no adjacent `t`-pairs. -/
theorem runGo_output_noAdj (t : Char) :
    ∀ (l : List Char) (b : Bool),
      noAdjBy (fun a b => a == t && b == t) (runGo t b l) = true := by
  intro l
  induction l with
  | nil => intro b; rfl
  | cons c rest ih =>
    intro b
    by_cases hc : (c == t) = true
    · cases b
      · simp only [runGo, hc, if_true]
        refine noAdjBy_cons.mpr ⟨?_, ih true⟩
        intro d hd
        have := head_runGo_true_ne t rest d hd
        simp [this]
      · simp only [runGo, hc, if_true]
        exact ih true
    · have hc' : (c == t) = false := Bool.eq_false_iff.mpr hc
      cases b <;>
      · simp only [runGo, hc', Bool.false_eq_true, if_false]
        refine noAdjBy_cons.mpr ⟨?_, ih false⟩
        intro d _
        simp [hc']

/-- The `t`-run collapser with `t ≠ s` preserves freedom from adjacent
`s`-pairs. -/
theorem runGo_preserves_noAdj (t s : Char) (hts : (t == s) = false) :
    ∀ (l : List Char) (b : Bool),
      noAdjBy (fun a b => a == s && b == s) l = true →
      noAdjBy (fun a b => a == s && b == s) (runGo t b l) = true := by
  intro l
  induction l with
  | nil => intro b _; cases b <;> rfl
  | cons c rest ih =>
    intro b h
    obtain ⟨hpair, htail⟩ := noAdjBy_cons.mp h
    by_cases hc : (c == t) = true
    · have hcs : (c == s) = false := by
        have : c = t := by simpa using hc
        subst this
        exact hts
      cases b
      · simp only [runGo, hc, if_true]
        refine noAdjBy_cons.mpr ⟨?_, ih true htail⟩
        intro d _
        simp [hcs]
      · simp only [runGo, hc, if_true]
        exact ih true htail
    · have hc' : (c == t) = false := Bool.eq_false_iff.mpr hc
      cases b <;>
      · simp only [runGo, hc', Bool.false_eq_true, if_false]
        refine noAdjBy_cons.mpr ⟨?_, ih false htail⟩
        intro d hd
        rw [head_runGo_false t rest] at hd
        exact hpair d hd

/-- Head of the whitespace collapser's output in emit state. -/
theorem head_wsGo_false (l : List Char) :
    (wsGo false l).head? = l.head? ∨ (wsGo false l).head? = some ' ' := by
  cases l with
  | nil => exact Or.inl rfl
  | cons c rest =>
    by_cases hc : pyIsSpace c = true
    · simp [wsGo, hc]
    · have hc' : pyIsSpace c = false := Bool.eq_false_iff.mpr hc
      simp [wsGo, hc']

/-- The whitespace collapser preserves freedom from adjacent `s`-pairs for a
non-space `s`. -/
theorem wsGo_preserves_noAdj (s : Char) (hs : pyIsSpace s = false) :
    ∀ (l : List Char) (b : Bool),
      noAdjBy (fun a b => a == s && b == s) l = true →
      noAdjBy (fun a b => a == s && b == s) (wsGo b l) = true := by
  intro l
  induction l with
  | nil => intro b _; cases b <;> rfl
  | cons c rest ih =>
    intro b h
    obtain ⟨hpair, htail⟩ := noAdjBy_cons.mp h
    by_cases hc : pyIsSpace c = true
    · have hcs : (' ' == s) = false := by
        rw [beq_eq_false_iff_ne]
        intro hcon
        rw [← hcon] at hs
        simp [pyIsSpace] at hs
      cases b
      · simp only [wsGo, hc, if_true]
        refine noAdjBy_cons.mpr ⟨?_, ih true htail⟩
        intro d _
        simp [hcs]
      · simp only [wsGo, hc, if_true]
        exact ih true htail
    · have hc' : pyIsSpace c = false := Bool.eq_false_iff.mpr hc
      cases b <;>
      · simp only [wsGo, hc', Bool.false_eq_true, if_false]
        refine noAdjBy_cons.mpr ⟨?_, ih false htail⟩
        intro d hd
        rcases head_wsGo_false rest with hh | hh
        · rw [hh] at hd
          exact hpair d hd
        · rw [hh] at hd
          have : d = ' ' := by
            have := hd.symm
            simpa using this
          subst this
          have : (' ' == s) = false := by
            rw [beq_eq_false_iff_ne]
            intro hcon
            rw [← hcon] at hs
            simp [pyIsSpace] at hs
          simp [this]

/-- Split words inherit pair freedom from the underlying string. -/
theorem splitWsGo_noAdj (p : Char → Char → Bool) :
    ∀ (l acc : List Char), noAdjBy p (acc.reverse ++ l) = true →
      ∀ w ∈ splitWsGo acc l, noAdjBy p w = true := by
  intro l
  induction l with
  | nil =>
    intro acc h w hw
    simp only [splitWsGo] at hw
    split at hw
    · simp at hw
    · simp only [List.mem_singleton] at hw
      subst hw
      exact noAdjBy_of_append_left h
  | cons c rest ih =>
    intro acc h w hw
    simp only [splitWsGo] at hw
    split at hw
    · have hrest : noAdjBy p rest = true :=
        noAdjBy_tail (noAdjBy_of_append_right h)
      split at hw
      · exact ih [] (by simpa using hrest) w hw
      · rcases List.mem_cons.mp hw with rfl | hw
        · exact noAdjBy_of_append_left h
        · exact ih [] (by simpa using hrest) w hw
    · refine ih (c :: acc) ?_ w hw
      rw [List.reverse_cons, List.append_assoc, List.singleton_append]
      exact h

/-- Joining pair-free words with a separator the predicate ignores is
pair-free. -/
theorem noAdjBy_append_sep {p : Char → Char → Bool}
    (hsep : ∀ a, p a ' ' = false ∧ p ' ' a = false) :
    ∀ (w l : List Char), noAdjBy p w = true → noAdjBy p l = true →
      noAdjBy p (w ++ ' ' :: l) = true := by
  intro w
  induction w with
  | nil =>
    intro l _ hl
    refine noAdjBy_cons.mpr ⟨fun d _ => (hsep d).2, hl⟩
  | cons a w' ih =>
    intro l hw hl
    obtain ⟨hpair, htail⟩ := noAdjBy_cons.mp hw
    rw [List.cons_append]
    refine noAdjBy_cons.mpr ⟨?_, ih l htail hl⟩
    intro d hd
    cases w' with
    | nil =>
      simp only [List.nil_append, List.head?_cons, Option.some.injEq] at hd
      subst hd
      exact (hsep a).1
    | cons b w'' =>
      simp only [List.cons_append, List.head?_cons, Option.some.injEq] at hd
      rw [hd.symm]
      exact hpair b (by simp)

/-- The space-join of pair-free tokens is pair-free, for predicates that
never fire on a space. -/
theorem noAdjBy_intercalate {p : Char → Char → Bool}
    (hsep : ∀ a, p a ' ' = false ∧ p ' ' a = false) :
    ∀ ts : List (List Char), (∀ w ∈ ts, noAdjBy p w = true) →
      noAdjBy p (List.intercalate [' '] ts) = true := by
  intro ts
  induction ts with
  | nil => intro _; rfl
  | cons w ts' ih =>
    intro h
    cases ts' with
    | nil =>
      rw [intercalate_single]
      exact h w (List.mem_cons_self w [])
    | cons w' ts'' =>
      rw [intercalate_cons₂, List.append_assoc, List.singleton_append]
      exact noAdjBy_append_sep hsep w _ (h w (List.mem_cons_self w _))
        (ih (fun v hv => h v (List.mem_cons_of_mem w hv)))

/-- The head of the space-join of non-empty tokens is the head of the first
token. -/
theorem intercalate_head_eq (v : List Char) (ts' : List (List Char)) (hne : v ≠ []) :
    (List.intercalate [' '] (v :: ts')).head? = v.head? := by
  cases ts' with
  | nil => rw [intercalate_single]
  | cons w' ts'' =>
    rw [intercalate_cons₂]
    cases v with
    | nil => exact absurd rfl hne
    | cons c r => simp

/-- The space-join of non-empty whitespace-free tokens starts with a
non-space character. -/
theorem intercalate_head_nonspace {ts : List (List Char)}
    (hne : ∀ w ∈ ts, w ≠ []) (hws : ∀ w ∈ ts, ∀ c ∈ w, pyIsSpace c = false) :
    ∀ c, (List.intercalate [' '] ts).head? = some c → pyIsSpace c = false := by
  intro c hc
  cases ts with
  | nil => simp [List.intercalate] at hc
  | cons w ts' =>
    rw [intercalate_head_eq w ts' (hne w (List.mem_cons_self w ts'))] at hc
    cases w with
    | nil => exact absurd rfl (hne [] (List.mem_cons_self [] ts'))
    | cons d r =>
      simp only [List.head?_cons, Option.some.injEq] at hc
      rw [← hc]
      exact hws _ (List.mem_cons_self _ ts') d (List.mem_cons_self d r)

/-- The reverse of the space-join of non-empty tokens starts with a
character of some token. -/
theorem intercalate_revhead_mem :
    ∀ ts : List (List Char), ts ≠ [] → (∀ w ∈ ts, w ≠ []) →
      ∃ c r, (List.intercalate [' '] ts).reverse = c :: r ∧ ∃ w ∈ ts, c ∈ w := by
  intro ts
  induction ts with
  | nil => intro h _; exact absurd rfl h
  | cons w ts' ih =>
    intro _ hne
    cases ts' with
    | nil =>
      rw [intercalate_single]
      cases hrev : w.reverse with
      | nil =>
        exact absurd (List.reverse_eq_nil_iff.mp hrev) (hne w (List.mem_cons_self w []))
      | cons c r =>
        refine ⟨c, r, rfl, w, List.mem_cons_self w [], ?_⟩
        exact List.mem_reverse.mp (hrev ▸ List.mem_cons_self c r)
    | cons w' ts'' =>
      rw [intercalate_cons₂]
      obtain ⟨c, r, hrev, v, hv, hcv⟩ := ih (by simp)
        (fun q hq => hne q (List.mem_cons_of_mem w hq))
      refine ⟨c, r ++ (' ' :: w.reverse), ?_, v, List.mem_cons_of_mem w hv, hcv⟩
      rw [List.append_assoc, List.reverse_append, List.reverse_append, hrev]
      simp

/-- Joining a whitespace-free word onto a single-spaced list with one
separator keeps the string free of adjacent whitespace. -/
theorem noAdjWs_join :
    ∀ (w l : List Char), (∀ c ∈ w, pyIsSpace c = false) →
      noAdjBy (fun a b => pyIsSpace a && pyIsSpace b) l = true →
      (∀ d, l.head? = some d → pyIsSpace d = false) →
      noAdjBy (fun a b => pyIsSpace a && pyIsSpace b) (w ++ ' ' :: l) = true := by
  intro w
  induction w with
  | nil =>
    intro l _ hl hhead
    refine noAdjBy_cons.mpr ⟨?_, hl⟩
    intro d hd
    rw [hhead d hd]
    simp
  | cons a w' ih =>
    intro l hw hl hhead
    rw [List.cons_append]
    refine noAdjBy_cons.mpr
      ⟨?_, ih l (fun c hc => hw c (List.mem_cons_of_mem a hc)) hl hhead⟩
    intro d _
    rw [hw a (List.mem_cons_self a w')]
    simp

/-- The space-join of non-empty whitespace-free tokens has no adjacent
whitespace. -/
theorem noAdjWs_intercalate :
    ∀ ts : List (List Char), (∀ w ∈ ts, w ≠ []) →
      (∀ w ∈ ts, ∀ c ∈ w, pyIsSpace c = false) →
      noAdjBy (fun a b => pyIsSpace a && pyIsSpace b)
        (List.intercalate [' '] ts) = true := by
  intro ts
  induction ts with
  | nil => intro _ _; rfl
  | cons w ts' ih =>
    intro hne hws
    cases ts' with
    | nil =>
      rw [intercalate_single]
      exact noAdjBy_of_all_false w (hws w (List.mem_cons_self w []))
    | cons w' ts'' =>
      rw [intercalate_cons₂, List.append_assoc, List.singleton_append]
      exact noAdjWs_join w _ (hws w (List.mem_cons_self w _))
        (ih (fun v hv => hne v (List.mem_cons_of_mem w hv))
          (fun v hv => hws v (List.mem_cons_of_mem w hv)))
        (intercalate_head_nonspace (fun v hv => hne v (List.mem_cons_of_mem w hv))
          (fun v hv => hws v (List.mem_cons_of_mem w hv)))

/-- Pair freedom survives a `dropWhile`. -/
theorem noAdjBy_dropWhile {p : Char → Char → Bool} (q : Char → Bool)
    {l : List Char} (h : noAdjBy p l = true) :
    noAdjBy p (l.dropWhile q) = true := by
  have := List.takeWhile_append_dropWhile q l
  rw [← this] at h
  exact noAdjBy_of_append_right h

/-- Pair freedom survives a `dropTrailing`. -/
theorem noAdjBy_dropTrailing {p : Char → Char → Bool} (q : Char → Bool)
    {l : List Char} (h : noAdjBy p l = true) :
    noAdjBy p (dropTrailing q l) = true := by
  obtain ⟨s, hs, _⟩ := dropTrailing_decomp q l
  rw [hs] at h
  exact noAdjBy_of_append_left h

/-- Pair freedom survives a `strip`. -/
theorem noAdjBy_pyStrip {p : Char → Char → Bool} {l : List Char}
    (h : noAdjBy p l = true) : noAdjBy p (pyStrip l) = true :=
  noAdjBy_dropTrailing pyIsSpace (noAdjBy_dropWhile pyIsSpace h)

/-- A character that is neither a comma nor loud punctuation is not trailing
punctuation (colon and semicolon are in the loud-punctuation class). -/
theorem isTrailPunct_eq_false {c : Char} (h1 : (c == ',') = false)
    (h2 : isStripChar c = false) : isTrailPunct c = false := by
  rw [Bool.eq_false_iff]
  intro hcon
  simp only [isTrailPunct, Bool.or_eq_true] at hcon
  rcases hcon with (hc | hc) | hc
  · rw [hc] at h1
    simp at h1
  · have : c = ':' := by simpa using hc
    subst this
    exact absurd h2 (by decide)
  · have : c = ';' := by simpa using hc
    subst this
    exact absurd h2 (by decide)

/-- Stripping whitespace off the space-join of non-empty whitespace-free
tokens is the identity. -/
theorem pyStrip_intercalate_eq {kept : List (List Char)}
    (hne : ∀ w ∈ kept, w ≠ []) (hws : ∀ w ∈ kept, ∀ c ∈ w, pyIsSpace c = false) :
    pyStrip (List.intercalate [' '] kept) = List.intercalate [' '] kept := by
  cases hk : kept with
  | nil => decide
  | cons w kept' =>
    subst hk
    refine pyStrip_eq_self (intercalate_head_nonspace hne hws) ?_
    intro c hc
    obtain ⟨c0, r0, hrev, v, hv, hc0⟩ :=
      intercalate_revhead_mem (w :: kept') (by simp) hne
    rw [hrev] at hc
    simp only [List.head?_cons, Option.some.injEq] at hc
    rw [← hc]
    exact hws v hv c0 hc0

/-- Stripping trailing punctuation off the space-join of punctuation-free
tokens is the identity. -/
theorem dropTrailing_intercalate_eq {kept : List (List Char)}
    (htp : ∀ w ∈ kept, ∀ c ∈ w, isTrailPunct c = false) :
    dropTrailing isTrailPunct (List.intercalate [' '] kept) =
      List.intercalate [' '] kept := by
  refine dropTrailing_eq_self ?_
  intro c hc
  rcases mem_intercalate_space kept c hc with ⟨v, hv, hcv⟩ | rfl
  · exact htp v hv c hcv
  · decide

/-- The enforcement pass fixes the space-join of a token list that is
already in enforced shape: non-empty, whitespace-free, lowercase,
punctuation-free, comma-free tokens without doubled dots or question marks,
already below the word budget. -/
theorem enforce_join_fixpoint (u : List Char) (kept : List (List Char))
    (hne : ∀ w ∈ kept, w ≠ [])
    (hws : ∀ w ∈ kept, ∀ c ∈ w, pyIsSpace c = false)
    (hnoupper : ∀ w ∈ kept, ∀ c ∈ w, isUpperA c = false)
    (hnostrip : ∀ w ∈ kept, ∀ c ∈ w, isStripChar c = false)
    (hnocomma : ∀ w ∈ kept, ∀ c ∈ w, (c == ',') = false)
    (hdd : ∀ w ∈ kept, noAdjBy (fun a b => a == '.' && b == '.') w = true)
    (hqq : ∀ w ∈ kept, noAdjBy (fun a b => a == '?' && b == '?') w = true)
    (hfix : simpleTrunc (maxWordsFor u) 0 kept = kept) :
    enforceStyleRules u (List.intercalate [' '] kept) =
      List.intercalate [' '] kept := by
  cases hk : kept with
  | nil => simp [List.intercalate, enforceStyleRules]
  | cons w0 kept' =>
    subst hk
    -- characters of the joined string
    have hy_noupper : ∀ c ∈ List.intercalate [' '] (w0 :: kept'), isUpperA c = false := by
      intro c hc
      rcases mem_intercalate_space _ c hc with ⟨v, hv, hcv⟩ | rfl
      · exact hnoupper v hv c hcv
      · decide
    have hy_nostrip : ∀ c ∈ List.intercalate [' '] (w0 :: kept'),
        isStripChar c = false := by
      intro c hc
      rcases mem_intercalate_space _ c hc with ⟨v, hv, hcv⟩ | rfl
      · exact hnostrip v hv c hcv
      · decide
    have hy_nocomma : ∀ c ∈ List.intercalate [' '] (w0 :: kept'),
        (c == ',') = false := by
      intro c hc
      rcases mem_intercalate_space _ c hc with ⟨v, hv, hcv⟩ | rfl
      · exact hnocomma v hv c hcv
      · decide
    have hy_spaces : ∀ c ∈ List.intercalate [' '] (w0 :: kept'),
        pyIsSpace c = true → c = ' ' := by
      intro c hc hsp
      rcases mem_intercalate_space _ c hc with ⟨v, hv, hcv⟩ | rfl
      · rw [hws v hv c hcv] at hsp
        simp at hsp
      · rfl
    have hy_dd : noAdjBy (fun a b => a == '.' && b == '.')
        (List.intercalate [' '] (w0 :: kept')) = true := by
      refine noAdjBy_intercalate ?_ _ hdd
      intro a
      constructor
      · rw [show ((' ' : Char) == '.') = false from by decide, Bool.and_false]
      · rw [show ((' ' : Char) == '.') = false from by decide, Bool.false_and]
    have hy_qq : noAdjBy (fun a b => a == '?' && b == '?')
        (List.intercalate [' '] (w0 :: kept')) = true := by
      refine noAdjBy_intercalate ?_ _ hqq
      intro a
      constructor
      · rw [show ((' ' : Char) == '?') = false from by decide, Bool.and_false]
      · rw [show ((' ' : Char) == '?') = false from by decide, Bool.false_and]
    have hy_ws : noAdjBy (fun a b => pyIsSpace a && pyIsSpace b)
        (List.intercalate [' '] (w0 :: kept')) = true :=
      noAdjWs_intercalate _ hne hws
    have hy_strip : pyStrip (List.intercalate [' '] (w0 :: kept')) =
        List.intercalate [' '] (w0 :: kept') := pyStrip_intercalate_eq hne hws
    have hy_tp : dropTrailing isTrailPunct (List.intercalate [' '] (w0 :: kept')) =
        List.intercalate [' '] (w0 :: kept') := by
      refine dropTrailing_intercalate_eq ?_
      intro v hv c hcv
      exact isTrailPunct_eq_false (hnocomma v hv c hcv) (hnostrip v hv c hcv)
    have hy_ne : List.intercalate [' '] (w0 :: kept') ≠ [] := by
      intro hj
      have hh := intercalate_head_eq w0 kept' (hne w0 (List.mem_cons_self w0 kept'))
      rw [hj] at hh
      cases hw0 : w0 with
      | nil => exact absurd hw0 (hne w0 (List.mem_cons_self w0 kept'))
      | cons c r =>
        rw [hw0] at hh
        simp at hh
    -- the normalisation pass fixes the joined string
    have hn1 : maskCits (List.intercalate [' '] (w0 :: kept')) =
        List.intercalate [' '] (w0 :: kept') :=
      maskGo_eq_self _ 0 _ hy_noupper
    have hn2 : (List.intercalate [' '] (w0 :: kept')).map pyToLower =
        List.intercalate [' '] (w0 :: kept') := pyLower_eq_self_list hy_noupper
    have hn3 : (List.intercalate [' '] (w0 :: kept')).filter
        (fun c => !(isStripChar c)) = List.intercalate [' '] (w0 :: kept') :=
      filter_strip_eq_self hy_nostrip
    have hn4 : runGo '.' false (List.intercalate [' '] (w0 :: kept')) =
        List.intercalate [' '] (w0 :: kept') := (runGo_eq_self '.' _ hy_dd).1
    have hn5 : runGo '?' false (List.intercalate [' '] (w0 :: kept')) =
        List.intercalate [' '] (w0 :: kept') := (runGo_eq_self '?' _ hy_qq).1
    have hn6 : commaGo (List.intercalate [' '] (w0 :: kept')).length
        (List.intercalate [' '] (w0 :: kept')) =
        List.intercalate [' '] (w0 :: kept') := commaGo_eq_self _ _ hy_nocomma
    have hn7 : wsGo false (List.intercalate [' '] (w0 :: kept')) =
        List.intercalate [' '] (w0 :: kept') :=
      (wsGo_eq_self _ hy_ws hy_spaces).1
    have hnorm_y : normalizeText (List.intercalate [' '] (w0 :: kept')) =
        List.intercalate [' '] (w0 :: kept') := by
      simp only [normalizeText]
      rw [hn1, hn2, hn3, hn4, hn5, hn6, hn7, hy_strip]
    have hsplit_y : splitWs (List.intercalate [' '] (w0 :: kept')) = w0 :: kept' :=
      splitWs_intercalate _ hne hws
    have hnoncit : ∀ t ∈ (w0 :: kept' : List (List Char)), isCitTok t = false := by
      intro t ht
      rw [Bool.eq_false_iff]
      intro hcon
      obtain ⟨c, hc, hupper⟩ := isCitTok_has_upper t hcon
      rw [hnoupper t ht c hc] at hupper
      simp at hupper
    simp only [enforceStyleRules]
    rw [if_neg (by simp [List.isEmpty_iff, hy_ne])]
    rw [hnorm_y, hsplit_y]
    rw [truncGo_eq_simpleTrunc (maxWordsFor u) _ hnoncit 0 []]
    rw [List.nil_append, hfix, hy_strip, hy_tp, hy_strip]

/-! ### Claim C10: idempotence of the enforcement pass -/

/-- Claim C10 (amended).  The deterministic enforcement pass is idempotent on
every comma-free input text (for any user message): a second application
returns the first application's output unchanged.  With commas the property
fails (see the counterexample): the comma-collapsing substitution and the
trailing-punctuation strip are not run to a fixpoint, so a first pass can
leave a `", "`-pattern or a trailing comma that a second pass still
rewrites. -/
theorem enforcement_idempotent_comma_free (u x : List Char)
    (hcomma : ∀ c ∈ x, (c == ',') = false) :
    enforceStyleRules u (enforceStyleRules u x) = enforceStyleRules u x := by
  by_cases hx : x.isEmpty
  · have hx' : x = [] := List.isEmpty_iff.mp hx
    subst hx'
    simp [enforceStyleRules]
  · have hxe : x.isEmpty = false := Bool.eq_false_iff.mpr hx
    -- comma-freedom survives masking and lowercasing
    have hs1_nocomma : ∀ c ∈ (maskCits x).map pyToLower, (c == ',') = false := by
      intro c hc
      obtain ⟨d, hd, rfl⟩ := List.mem_map.mp hc
      rcases pyToLower_cases d with heq | hrange
      · rw [heq]
        rcases mem_maskGo x.length 0 x d hd with h | rfl | rfl | rfl | rfl | hdig
        · exact hcomma d h
        · decide
        · decide
        · decide
        · decide
        · rw [beq_eq_false_iff_ne]
          intro hcon
          subst hcon
          exact absurd hdig (by decide)
      · rw [beq_eq_false_iff_ne]
        intro hcon
        rw [hcon] at hrange
        have : (',' : Char).toNat = 44 := by decide
        omega
    have hs3b_nocomma : ∀ c ∈ runGo '?' false (runGo '.' false
        (((maskCits x).map pyToLower).filter (fun c => !(isStripChar c)))),
        (c == ',') = false := by
      intro c hc
      have h3a := mem_runGo '?' false _ c hc
      have h2m := mem_runGo '.' false _ c h3a
      exact hs1_nocomma c (List.mem_of_mem_filter h2m)
    have hnorm_eq : normalizeText x = pyStrip (wsGo false (runGo '?' false
        (runGo '.' false (((maskCits x).map pyToLower).filter
          (fun c => !(isStripChar c)))))) := by
      simp only [normalizeText]
      rw [commaGo_eq_self _ _ hs3b_nocomma]
    have hnorm_chars : ∀ c ∈ normalizeText x,
        isUpperA c = false ∧ isStripChar c = false ∧ (c == ',') = false := by
      intro c hc
      rw [hnorm_eq] at hc
      have h4 := mem_pyStrip _ c hc
      rcases mem_wsGo false _ c h4 with h3 | rfl
      · have h3a := mem_runGo '?' false _ c h3
        have h2m := mem_runGo '.' false _ c h3a
        have h2f := List.of_mem_filter h2m
        have h1m := List.mem_of_mem_filter h2m
        refine ⟨?_, by simpa using h2f, hs1_nocomma c h1m⟩
        obtain ⟨d, _, rfl⟩ := List.mem_map.mp h1m
        exact isUpperA_pyToLower d
      · exact ⟨by decide, by decide, by decide⟩
    have hnorm_dd : noAdjBy (fun a b => a == '.' && b == '.')
        (normalizeText x) = true := by
      rw [hnorm_eq]
      refine noAdjBy_pyStrip ?_
      refine wsGo_preserves_noAdj '.' (by decide) _ false ?_
      refine runGo_preserves_noAdj '?' '.' (by decide) _ false ?_
      exact runGo_output_noAdj '.' _ false
    have hnorm_qq : noAdjBy (fun a b => a == '?' && b == '?')
        (normalizeText x) = true := by
      rw [hnorm_eq]
      refine noAdjBy_pyStrip ?_
      refine wsGo_preserves_noAdj '?' (by decide) _ false ?_
      exact runGo_output_noAdj '?' _ false
    -- the split tokens and the kept tokens
    have hnoncit : ∀ t ∈ splitWs (normalizeText x), isCitTok t = false := by
      intro t ht
      rw [Bool.eq_false_iff]
      intro hcon
      obtain ⟨c, hc, hupper⟩ := isCitTok_has_upper t hcon
      rcases splitWsGo_mem_chars _ [] t ht c hc with h | h
      · simp at h
      · rw [(hnorm_chars c h).1] at hupper
        simp at hupper
    have hkeptmem : ∀ w ∈ simpleTrunc (maxWordsFor u) 0 (splitWs (normalizeText x)),
        w ∈ splitWs (normalizeText x) := simpleTrunc_mem (maxWordsFor u) _ 0
    have hne : ∀ w ∈ simpleTrunc (maxWordsFor u) 0 (splitWs (normalizeText x)),
        w ≠ [] := fun w hw => splitWsGo_ne_nil _ [] w (hkeptmem w hw)
    have hws : ∀ w ∈ simpleTrunc (maxWordsFor u) 0 (splitWs (normalizeText x)),
        ∀ c ∈ w, pyIsSpace c = false :=
      fun w hw => splitWsGo_wsfree _ [] (by simp) w (hkeptmem w hw)
    have htokchars : ∀ w ∈ simpleTrunc (maxWordsFor u) 0 (splitWs (normalizeText x)),
        ∀ c ∈ w, c ∈ normalizeText x := by
      intro w hw c hc
      rcases splitWsGo_mem_chars _ [] w (hkeptmem w hw) c hc with h | h
      · simp at h
      · exact h
    have hnoupper : ∀ w ∈ simpleTrunc (maxWordsFor u) 0 (splitWs (normalizeText x)),
        ∀ c ∈ w, isUpperA c = false :=
      fun w hw c hc => (hnorm_chars c (htokchars w hw c hc)).1
    have hnostrip : ∀ w ∈ simpleTrunc (maxWordsFor u) 0 (splitWs (normalizeText x)),
        ∀ c ∈ w, isStripChar c = false :=
      fun w hw c hc => (hnorm_chars c (htokchars w hw c hc)).2.1
    have hnocomma : ∀ w ∈ simpleTrunc (maxWordsFor u) 0 (splitWs (normalizeText x)),
        ∀ c ∈ w, (c == ',') = false :=
      fun w hw c hc => (hnorm_chars c (htokchars w hw c hc)).2.2
    have hdd : ∀ w ∈ simpleTrunc (maxWordsFor u) 0 (splitWs (normalizeText x)),
        noAdjBy (fun a b => a == '.' && b == '.') w = true :=
      fun w hw => splitWsGo_noAdj _ _ [] (by simpa using hnorm_dd) w (hkeptmem w hw)
    have hqq : ∀ w ∈ simpleTrunc (maxWordsFor u) 0 (splitWs (normalizeText x)),
        noAdjBy (fun a b => a == '?' && b == '?') w = true :=
      fun w hw => splitWsGo_noAdj _ _ [] (by simpa using hnorm_qq) w (hkeptmem w hw)
    have htp : ∀ w ∈ simpleTrunc (maxWordsFor u) 0 (splitWs (normalizeText x)),
        ∀ c ∈ w, isTrailPunct c = false :=
      fun w hw c hc => isTrailPunct_eq_false (hnocomma w hw c hc) (hnostrip w hw c hc)
    have henf : enforceStyleRules u x = List.intercalate [' ']
        (simpleTrunc (maxWordsFor u) 0 (splitWs (normalizeText x))) := by
      simp only [enforceStyleRules, hxe, Bool.false_eq_true, if_false]
      rw [truncGo_eq_simpleTrunc (maxWordsFor u) _ hnoncit 0 [], List.nil_append]
      rw [pyStrip_intercalate_eq hne hws, dropTrailing_intercalate_eq htp,
        pyStrip_intercalate_eq hne hws]
    rw [henf]
    exact enforce_join_fixpoint u _ hne hws hnoupper hnostrip hnocomma hdd hqq
      (simpleTrunc_idem (maxWordsFor u) (splitWs (normalizeText x)) 0)

/-- Witness for `enforcement_idempotent_comma_free` on a concrete comma-free
text. -/
theorem enforcement_idempotent_comma_free_witness :
    enforceStyleRules "how are you".data
        (enforceStyleRules "how are you".data "WELL... I feel  okay-ish today?? yes".data) =
      enforceStyleRules "how are you".data "WELL... I feel  okay-ish today?? yes".data := by
  refine enforcement_idempotent_comma_free "how are you".data
    "WELL... I feel  okay-ish today?? yes".data (by decide)
